import Mathlib

/-! iter_toy: lazy sequence combinators.

A shallow embedding of `main.go`.

A Go iterator `iter.Seq[T]` is a closure `func(yield func(T) bool)`: a body that
runs until it calls `yield`, waits for the answer, and goes on.  The embedding
keeps exactly that: a producer is the current value of its captured variables
together with two transition functions, one that enters the body and one that
resumes it after a call of `yield` has answered.  Every transition ends at the
next call of `yield`, at the return of the body, or in a run-time panic.

Go's `int` is taken at its 64-bit width (`wrap`); `*big.Int` is `Int`.
-/

namespace IterToy

/-! ## Machine integers -/

/-- Two's-complement reduction of an integer into the range of a 64-bit Go `int`. -/
def wrap (x : Int) : Int := (x + 2 ^ 63) % 2 ^ 64 - 2 ^ 63

/-! ## Producers -/

/-- Where a producer body stands after it has run as far as it can on its own:
it returned (`done`, with the captured variables it leaves behind), it is inside
a call `yield(v)` (`yield`, with the frame `s` it will resume from), or the Go
run time panicked (`crash`). -/
inductive Susp (κ σ T : Type) where
  | done (k : κ)
  | yield (v : T) (s : σ)
  | crash
  deriving DecidableEq

/-- An `iter.Seq[T]` value: a closure over variables of type `κ`.
`enter k` runs the body from its first statement with captured variables `k`;
`resume s ok` continues from the call of `yield` that was suspended with frame
`s`, that call having answered `ok`. -/
structure Seq (κ σ T : Type) where
  vars : κ
  enter : κ → Susp κ σ T
  resume : σ → Bool → Susp κ σ T

/-- How a drive of a producer ended, with the state of the step callback:
the body returned, the run panicked, or the fuel bound on the number of
callback invocations was reached first. -/
inductive Run (κ S : Type) where
  | returned (k : κ) (s : S)
  | panicked (s : S)
  | outOfFuel (s : S)
  deriving DecidableEq

/-- The state of the step callback when the drive stood still. -/
def Run.state {κ S : Type} : Run κ S → S
  | .returned _ s => s
  | .panicked s => s
  | .outOfFuel s => s

/-- The state of the step callback at the end of a drive that is over. -/
def Run.seen {κ S : Type} : Run κ S → Option S
  | .returned _ s => some s
  | .panicked s => some s
  | .outOfFuel _ => none

/-- The plain call `p(yield)` of a producer with a step callback that is an
ordinary function value with state `S`, continued from `a`. -/
def Seq.callFrom {κ σ T S : Type} (p : Seq κ σ T) (yield : T → S → Bool × S) :
    Nat → Susp κ σ T → S → Run κ S
  | _, .done k, s => .returned k s
  | _, .crash, s => .panicked s
  | 0, .yield _ _, s => .outOfFuel s
  | fuel + 1, .yield v st, s =>
      p.callFrom yield fuel (p.resume st (yield v s).1) (yield v s).2

/-- The call `p(yield)` from the first statement of the body. -/
def Seq.call {κ σ T S : Type} (p : Seq κ σ T) (yield : T → S → Bool × S)
    (fuel : Nat) (s : S) : Run κ S :=
  p.callFrom yield fuel (p.enter p.vars) s

/-- The loop `for v := range p { body }`, continued from `a`.  `body` answers
`true` when it runs to its end and `false` when it leaves the loop (`break` or
`return`).  After the body has left the loop the producer is told `false`; the
run time panics if the producer then calls the loop body again. -/
def Seq.rangeFrom {κ σ T S : Type} (p : Seq κ σ T) (body : T → S → Bool × S) :
    Nat → Susp κ σ T → S → Run κ S
  | _, .done k, s => .returned k s
  | _, .crash, s => .panicked s
  | 0, .yield _ _, s => .outOfFuel s
  | fuel + 1, .yield v st, s =>
      if (body v s).1 then p.rangeFrom body fuel (p.resume st true) (body v s).2
      else
        match p.resume st false with
        | .done k => .returned k (body v s).2
        | _ => .panicked (body v s).2

/-- The loop `for v := range p { body }` from the first statement of `p`. -/
def Seq.forRange {κ σ T S : Type} (p : Seq κ σ T) (body : T → S → Bool × S)
    (fuel : Nat) (s : S) : Run κ S :=
  p.rangeFrom body fuel (p.enter p.vars) s

/-! ## `reduce` -/

/-- The body of the range loop in `reduce`:
`if agg, err = combine(agg, val); err != nil { return agg, err }`.
Its state is the pair of locals `(agg, err)`; `err == nil` is `none`. -/
def reduce.body {T U E : Type} (combine : U → T → U × Option E) (val : T)
    (st : U × Option E) : Bool × (U × Option E) :=
  if (combine st.1 val).2.isSome then (false, combine st.1 val) else (true, combine st.1 val)

/-- `reduce(src, initial, combine)`: both `return agg, err` hand back the
locals as the loop left them. -/
def reduce {κ σ T U E : Type} (src : Seq κ σ T) (initial : U)
    (combine : U → T → U × Option E) (fuel : Nat) : Run κ (U × Option E) :=
  src.forRange (reduce.body combine) fuel (initial, none)

/-- `reduceToSlice(src)`: `nil` is the empty list. -/
def reduceToSlice {κ σ T : Type} (src : Seq κ σ T) (fuel : Nat) : Run κ (List T) :=
  match reduce src ([] : List T) (fun agg val => (agg ++ [val], (none : Option Unit))) fuel with
  | .returned k r => .returned k r.1
  | .panicked r => .panicked r.1
  | .outOfFuel r => .outOfFuel r.1

/-! ## Example producers -/

/-- `numbersFrom(i)`: `for yield(i) { i++ }`. -/
def numbersFrom (i : Int) : Seq Int Int Int where
  vars := i
  enter := fun i => .yield i i
  resume := fun i ok => if ok then .yield (wrap (i + 1)) (wrap (i + 1)) else .done i

/-- `numbers()`. -/
def numbers : Seq Int Int Int := numbersFrom 0

/-- `intsFrom(i)`: `for yield(i) { i++ }`. -/
def intsFrom (i : Int) : Seq Int Int Int where
  vars := i
  enter := fun i => .yield i i
  resume := fun i ok => if ok then .yield (wrap (i + 1)) (wrap (i + 1)) else .done i

/-- `intsFromTo(i, j)`: `ok := true; for ; ok && i < j; i++ { ok = yield(i) }`. -/
def intsFromTo (i j : Int) : Seq Int Int Int where
  vars := i
  enter := fun i => if i < j then .yield i i else .done i
  resume := fun i ok =>
    if ok && wrap (i + 1) < j then .yield (wrap (i + 1)) (wrap (i + 1))
    else .done (wrap (i + 1))

/-- The two calls of `yield` in the body of `fibs`. -/
inductive FibsAt where
  | first
  | inLoop
  deriving DecidableEq

/-- `fibs()`: captured `a, b`, both `1` at first. -/
def fibs : Seq (Int × Int) (FibsAt × Int × Int) Int where
  vars := (1, 1)
  enter := fun k => .yield k.1 (.first, k.1, k.2)
  resume := fun s ok =>
    match s with
    | (.first, a, b) => if !ok then .done (a, b) else .yield b (.inLoop, a, b)
    | (.inLoop, a, b) => if !ok then .done (a, b) else .yield (a + b) (.inLoop, b, a + b)

/-! ## `limit`, `limit2` -/

/-- The `break` of the range loop in `limit`: the source is told `false`. -/
def limit.leave {κ σ T : Type} (src : Seq κ σ T) (s : σ) (cnt : Int) :
    Susp (κ × Int) (σ × Int) T :=
  match src.resume s false with
  | .done k => .done (k, cnt)
  | _ => .crash

/-- One turn of `for v := range src { if cnt <= 0 { break }; cnt--; if !yield(v) ... }`
up to the call of `yield`. -/
def limit.loop {κ σ T : Type} (src : Seq κ σ T) (a : Susp κ σ T) (cnt : Int) :
    Susp (κ × Int) (σ × Int) T :=
  match a with
  | .done k => .done (k, cnt)
  | .crash => .crash
  | .yield v s => if cnt ≤ 0 then limit.leave src s cnt else .yield v (s, wrap (cnt - 1))

/-- `limit(src, cnt)`. -/
def limit {κ σ T : Type} (src : Seq κ σ T) (cnt : Int) : Seq (κ × Int) (σ × Int) T where
  vars := (src.vars, cnt)
  enter := fun k => limit.loop src (src.enter k.1) k.2
  resume := fun s ok =>
    if !ok then limit.leave src s.1 s.2 else limit.loop src (src.resume s.1 true) s.2

/-- The `break` of the range loop in `limit2`. -/
def limit2.leave {κ σ T U : Type} (src : Seq κ σ (T × U)) (s : σ) (cnt : Int) :
    Susp (κ × Int) (σ × Int) (T × U) :=
  match src.resume s false with
  | .done k => .done (k, cnt)
  | _ => .crash

/-- One turn of the range loop of `limit2` up to the call of `yield`. -/
def limit2.loop {κ σ T U : Type} (src : Seq κ σ (T × U)) (a : Susp κ σ (T × U)) (cnt : Int) :
    Susp (κ × Int) (σ × Int) (T × U) :=
  match a with
  | .done k => .done (k, cnt)
  | .crash => .crash
  | .yield kv s =>
      if cnt ≤ 0 then limit2.leave src s cnt else .yield (kv.1, kv.2) (s, wrap (cnt - 1))

/-- `limit2(src, cnt)`; an `iter.Seq2[T, U]` hands pairs to its callback. -/
def limit2 {κ σ T U : Type} (src : Seq κ σ (T × U)) (cnt : Int) :
    Seq (κ × Int) (σ × Int) (T × U) where
  vars := (src.vars, cnt)
  enter := fun k => limit2.loop src (src.enter k.1) k.2
  resume := fun s ok =>
    if !ok then limit2.leave src s.1 s.2 else limit2.loop src (src.resume s.1 true) s.2

/-! ## The pull adapter and `zip` -/

/-- The state of one cursor made by `iter.Pull`: the source has not been
started, it is suspended inside a call of `yield`, or the cursor is over
(the source returned, or `stop` was called). -/
inductive Cursor (κ σ : Type) where
  | fresh (k : κ)
  | suspended (s : σ)
  | closed (k : κ)
  deriving DecidableEq

/-- Modelled from the spec: the pull adapter is Go's standard `iter.Pull`, which
is not part of the repository source.  `next()` resumes the source up to its next
call of `yield` and returns that value, or reports that there is none once the
source has returned, after which the cursor stays over.  A panic of the source
surfaces in the caller (`none`). -/
def pullNext {κ σ T : Type} (p : Seq κ σ T) : Cursor κ σ → Option (Option T × Cursor κ σ)
  | .closed k => some (none, .closed k)
  | .fresh k =>
      match p.enter k with
      | .done k1 => some (none, .closed k1)
      | .yield v s => some (some v, .suspended s)
      | .crash => none
  | .suspended s =>
      match p.resume s true with
      | .done k1 => some (none, .closed k1)
      | .yield v s1 => some (some v, .suspended s1)
      | .crash => none

/-- Modelled from the spec: `stop()` of Go's standard `iter.Pull`.  A cursor that
is over stays as it is; a source that was never started is never run; a
suspended source has its pending `yield` answered `false` and is expected to
return.  A source that calls `yield` again instead breaks the iterator contract;
that run is not followed further and is reported as abnormal (`none`). -/
def pullStop {κ σ T : Type} (p : Seq κ σ T) : Cursor κ σ → Option (Cursor κ σ)
  | .closed k => some (.closed k)
  | .fresh k => some (.closed k)
  | .suspended s =>
      match p.resume s false with
      | .done k => some (.closed k)
      | _ => none

/-- The deferred calls that run when the body of `zip` returns: `bStop()`, then
`aStop()`. -/
def zip.leave {κa σa T κb σb U : Type} (a : Seq κa σa T) (b : Seq κb σb U)
    (ca : Cursor κa σa) (cb : Cursor κb σb) :
    Susp (Cursor κa σa × Cursor κb σb) (Cursor κa σa × Cursor κb σb) (T × U) :=
  match pullStop b cb with
  | none => .crash
  | some cb1 =>
      match pullStop a ca with
      | none => .crash
      | some ca1 => .done (ca1, cb1)

/-- The statements `aV, aOK = aNext(); bV, bOK = bNext()` followed by the test
`aOK && bOK` of the loop, up to the call of `yield`. -/
def zip.advance {κa σa T κb σb U : Type} (a : Seq κa σa T) (b : Seq κb σb U)
    (ca : Cursor κa σa) (cb : Cursor κb σb) :
    Susp (Cursor κa σa × Cursor κb σb) (Cursor κa σa × Cursor κb σb) (T × U) :=
  match pullNext a ca with
  | none => .crash
  | some (aV, ca1) =>
      match pullNext b cb with
      | none => .crash
      | some (bV, cb1) =>
          match aV, bV with
          | some x, some y => .yield (x, y) (ca1, cb1)
          | _, _ => zip.leave a b ca1 cb1

/-- `zip(a, b)`.  The two cursors are made once, when `zip` is called, and are
the captured variables of the closure it returns. -/
def zip {κa σa T κb σb U : Type} (a : Seq κa σa T) (b : Seq κb σb U) :
    Seq (Cursor κa σa × Cursor κb σb) (Cursor κa σa × Cursor κb σb) (T × U) where
  vars := (.fresh a.vars, .fresh b.vars)
  enter := fun k => zip.advance a b k.1 k.2
  resume := fun s ok => if !ok then zip.leave a b s.1 s.2 else zip.advance a b s.1 s.2

/-! ## Observation -/

/-- The step callback that always continues and keeps what it is handed. -/
def collect {T : Type} (v : T) (seen : List T) : Bool × List T := (true, seen ++ [v])

/-- The values handed to an always-continuing step by a drive of `p`, when the
drive is over within `fuel` callback invocations (it may have ended in a
panic). -/
def Seq.yielded {κ σ T : Type} (p : Seq κ σ T) (fuel : Nat) : Option (List T) :=
  (p.call collect fuel []).seen

/-- The first `n` values (fewer if the body returns or panics before) that `p`
hands to a step which keeps answering `true`, continued from `a`. -/
def Seq.takeFrom {κ σ T : Type} (p : Seq κ σ T) : Nat → Susp κ σ T → List T
  | 0, _ => []
  | _ + 1, .done _ => []
  | _ + 1, .crash => []
  | n + 1, .yield v s => v :: p.takeFrom n (p.resume s true)

/-- The first `n` values of a drive of `p` from its first statement. -/
def Seq.take {κ σ T : Type} (p : Seq κ σ T) (n : Nat) : List T :=
  p.takeFrom n (p.enter p.vars)

/-- A step callback that also keeps the list of the answers it gave. -/
def logged {T S : Type} (step : T → S → Bool × S) (v : T) (st : S × List Bool) :
    Bool × (S × List Bool) :=
  ((step v st.1).1, ((step v st.1).2, st.2 ++ [(step v st.1).1]))

/-- Where `spy p` stands when `p` stands at `a`, the record so far being `log`. -/
def spy.watch {κ σ T : Type} (a : Susp κ σ T) (log : List (T × Bool)) :
    Susp (κ × List (T × Bool)) (σ × T × List (T × Bool)) T :=
  match a with
  | .done k => .done (k, log)
  | .yield v s => .yield v (s, v, log)
  | .crash => .crash

/-- The producer `p` with a counting side effect: it behaves as `p` does and
records, for every call of its step callback, the value it handed over and the
answer it received. -/
def spy {κ σ T : Type} (p : Seq κ σ T) :
    Seq (κ × List (T × Bool)) (σ × T × List (T × Bool)) T where
  vars := (p.vars, [])
  enter := fun k => spy.watch (p.enter k.1) k.2
  resume := fun s ok => spy.watch (p.resume s.1 ok) (s.2.2 ++ [(s.2.1, ok)])

/-- The rule of the producer contract: told `false`, the body returns without
calling its step callback again. -/
def Seq.Obeys {κ σ T : Type} (p : Seq κ σ T) : Prop :=
  ∀ s, ∃ k, p.resume s false = .done k

/-- In every drive of `p`, with whatever step callback, an answer `false` is the
last answer the callback is ever asked for. -/
def Seq.NeverCallsAfterStop {κ σ T : Type} (p : Seq κ σ T) : Prop :=
  ∀ (S : Type) (step : T → S → Bool × S) (fuel : Nat) (s : S),
    false ∉ ((p.call (logged step) fuel (s, [])).state.2).dropLast

/-- The Fibonacci values in the words of the specification:
`f(0) = f(1) = 1`, `f(n) = f(n-1) + f(n-2)`. -/
def fibSpec : Nat → Int
  | 0 => 1
  | 1 => 1
  | n + 2 => fibSpec (n + 1) + fibSpec n

/-- From `a`, told `true` every time, `p` hands over exactly the values `xs`
and then returns, leaving the captured variables `k`. -/
inductive Seq.Emits {κ σ T : Type} (p : Seq κ σ T) : Susp κ σ T → List T → κ → Prop where
  | done (k : κ) : Seq.Emits p (.done k) [] k
  | yield (v : T) (s : σ) (xs : List T) (k : κ) :
      Seq.Emits p (p.resume s true) xs k → Seq.Emits p (.yield v s) (v :: xs) k

/-- Where `p` stands after its successive calls of `yield`, from `a` on, have
been given the answers `bs`. -/
def Seq.feed {κ σ T : Type} (p : Seq κ σ T) : List Bool → Susp κ σ T → Susp κ σ T
  | [], a => a
  | b :: bs, .yield _ s => p.feed bs (p.resume s b)
  | _ :: _, .done k => .done k
  | _ :: _, .crash => .crash

/-- The values `p` hands over, each with the answer it gets, when its successive
calls of `yield`, from `a` on, are given the answers `bs`. -/
def Seq.record {κ σ T : Type} (p : Seq κ σ T) : List Bool → Susp κ σ T → List (T × Bool)
  | [], _ => []
  | b :: bs, .yield v s => (v, b) :: p.record bs (p.resume s b)
  | _ :: _, .done _ => []
  | _ :: _, .crash => []

/-- The combine function never fails along the fold of `xs` from `u`. -/
def NeverFails {T U E : Type} (combine : U → T → U × Option E) : U → List T → Prop
  | _, [] => True
  | u, v :: vs => (combine u v).2 = none ∧ NeverFails combine (combine u v).1 vs

/-- A combine function that also keeps, for each of its invocations, the value
it was handed and the error it returned. -/
def recorded {T U E : Type} (combine : U → T → U × Option E)
    (st : U × List (T × Option E)) (v : T) : (U × List (T × Option E)) × Option E :=
  (((combine st.1 v).1, st.2 ++ [(v, (combine st.1 v).2)]), (combine st.1 v).2)

/-- What a cursor runs when `next()` is called on it. -/
def Cursor.ahead {κ σ T : Type} (p : Seq κ σ T) : Cursor κ σ → Susp κ σ T
  | .fresh k => p.enter k
  | .suspended s => p.resume s true
  | .closed k => .done k

/-- The same end of a drive, with the callback state seen through `g`. -/
def Run.mapState {κ S S1 : Type} (g : S → S1) : Run κ S → Run κ S1
  | .returned k s => .returned k (g s)
  | .panicked s => .panicked (g s)
  | .outOfFuel s => .outOfFuel (g s)

/-- The step callback answers `true` on each value of `xs` in turn, from the
callback state `s` on. -/
def AllContinue {T S : Type} (step : T → S → Bool × S) : S → List T → Prop
  | _, [] => True
  | s, x :: xs => (step x s).1 = true ∧ AllContinue step (step x s).2 xs

/-- The combine function of `TestNumbers`:
`func(agg int, val int) (int, error) { return agg + val, nil }`. -/
def addInts (agg val : Int) : Int × Option Unit := (wrap (agg + val), none)

/-- The same producer value at a later time, its captured variables being `k`:
what a later drive of the same closure runs. -/
def Seq.again {κ σ T : Type} (p : Seq κ σ T) (k : κ) : Seq κ σ T :=
  { vars := k, enter := p.enter, resume := p.resume }

/-- How a drive of `zip` ends once the loop is left, `ra` and `rb` being where
the two sources stand after their last answer: it returns with both cursors
over when both sources have returned, and is abnormal otherwise. -/
def zip.outcome {κa σa T κb σb U S : Type} (ra : Susp κa σa T) (rb : Susp κb σb U) (s : S) :
    Run (Cursor κa σa × Cursor κb σb) S :=
  match ra, rb with
  | .done ka, .done kb => .returned (.closed ka, .closed kb) s
  | _, _ => .panicked s

/-- A sequence of drives of the same producer value, one after the other: each
drive has its own step callback and fuel, starts from the captured variables
the drive before left behind, and carries the callback state on.  There is no
next drive after one that did not return. -/
def Seq.drives {κ σ T S : Type} (p : Seq κ σ T) :
    List ((T → S → Bool × S) × Nat) → κ → S → Option (κ × S)
  | [], k, s => some (k, s)
  | d :: rest, k, s =>
      match (p.again k).call d.1 d.2 s with
      | .returned k1 s1 => p.drives rest k1 s1
      | _ => none

/-- `fibs()` with its `*big.Int` values as pointers.  The store of big integers
is a list of cells and a pointer is an index into it; the store is kept with the
captured variables because `fibs` is the only code that writes to these cells.
`big.NewInt(1)` twice makes the cells 0 and 1; `new(big.Int).Add(a, b)` makes a
new cell holding the sum of the cells `a` and `b` and returns its pointer; the
step callback is handed pointers. -/
def fibsPtr : Seq (List Int × Nat × Nat) (FibsAt × List Int × Nat × Nat) Nat where
  vars := ([1, 1], 0, 1)
  enter := fun k => .yield k.2.1 (.first, k.1, k.2.1, k.2.2)
  resume := fun s ok =>
    match s with
    | (.first, h, a, b) => if !ok then .done (h, a, b) else .yield b (.inLoop, h, a, b)
    | (.inLoop, h, a, b) =>
        if !ok then .done (h, a, b)
        else .yield h.length (.inLoop, h ++ [h.getD a 0 + h.getD b 0], b, h.length)

/-- The store in which the cells `0 .. k-1` hold the Fibonacci values
`f(0) .. f(k-1)`. -/
def fibStore (k : Nat) : List Int := (List.range k).map fibSpec

/-! ## Theorems -/

/-! ### Machine integers -/

theorem wrap_eq_self {x : Int} (h1 : -2 ^ 63 ≤ x) (h2 : x < 2 ^ 63) : wrap x = x := by
  unfold wrap
  omega

/-! ### Values of a drive -/

theorem emits_of_callFrom {κ σ T : Type} (p : Seq κ σ T) :
    ∀ (f : Nat) (a : Susp κ σ T) (acc xs : List T) (k : κ),
      p.callFrom collect f a acc = .returned k xs →
      ∃ rest, xs = acc ++ rest ∧ p.Emits a rest k := by
  intro f
  induction f with
  | zero =>
    intro a acc xs k h
    cases a with
    | done k1 =>
      simp only [Seq.callFrom, Run.returned.injEq] at h
      exact ⟨[], by simp [h.2], h.1 ▸ Seq.Emits.done k1⟩
    | yield v s => simp [Seq.callFrom] at h
    | crash => simp [Seq.callFrom] at h
  | succ f ih =>
    intro a acc xs k h
    cases a with
    | done k1 =>
      simp only [Seq.callFrom, Run.returned.injEq] at h
      exact ⟨[], by simp [h.2], h.1 ▸ Seq.Emits.done k1⟩
    | yield v s =>
      simp only [Seq.callFrom, collect] at h
      obtain ⟨rest, hx, he⟩ := ih _ _ _ _ h
      exact ⟨v :: rest, by simp [hx], Seq.Emits.yield v s rest k he⟩
    | crash => simp [Seq.callFrom] at h

theorem callFrom_of_emits {κ σ T : Type} (p : Seq κ σ T) {a : Susp κ σ T} {xs : List T}
    {k : κ} (h : p.Emits a xs k) :
    ∀ (fuel : Nat) (acc : List T), xs.length ≤ fuel →
      p.callFrom collect fuel a acc = .returned k (acc ++ xs) := by
  induction h with
  | done k => intro fuel acc _; cases fuel <;> simp [Seq.callFrom]
  | yield v s xs k _ ih =>
    intro fuel acc hf
    obtain ⟨f, rfl⟩ : ∃ f, fuel = f + 1 := ⟨fuel - 1, by simp at hf; omega⟩
    simp only [Seq.callFrom, collect]
    rw [ih f (acc ++ [v]) (by simp at hf; omega)]
    simp

theorem takeFrom_of_emits {κ σ T : Type} (p : Seq κ σ T) {a : Susp κ σ T} {xs : List T}
    {k : κ} (h : p.Emits a xs k) : ∀ n, p.takeFrom n a = xs.take n := by
  induction h with
  | done k => intro n; cases n <;> simp [Seq.takeFrom]
  | yield v s xs k _ ih =>
    intro n
    cases n with
    | zero => simp [Seq.takeFrom]
    | succ n => simp [Seq.takeFrom, ih n]

/-! ### `limit` -/

theorem limit_collect_from {κ σ T : Type} (P : Seq κ σ T) (c0 : Int) :
    ∀ (n fuel : Nat) (a : Susp κ σ T) (acc : List T) (cnt : Int),
      cnt.toNat = n → cnt < 2 ^ 63 → n ≤ fuel →
      ((limit P c0).callFrom collect fuel (limit.loop P a cnt) acc).seen
        = some (acc ++ P.takeFrom n a) := by
  intro n
  induction n with
  | zero =>
    intro fuel a acc cnt hc _ _
    have hle : cnt ≤ 0 := by omega
    cases a with
    | done k => cases fuel <;> simp [limit.loop, Seq.callFrom, Run.seen, Seq.takeFrom]
    | crash => cases fuel <;> simp [limit.loop, Seq.callFrom, Run.seen, Seq.takeFrom]
    | yield v s =>
      simp only [limit.loop, hle, if_true, limit.leave]
      cases P.resume s false <;> cases fuel <;> simp [Seq.callFrom, Run.seen, Seq.takeFrom]
  | succ n ih =>
    intro fuel a acc cnt hc hlt hf
    have hpos : ¬ cnt ≤ 0 := by omega
    obtain ⟨f, rfl⟩ : ∃ f, fuel = f + 1 := ⟨fuel - 1, by omega⟩
    cases a with
    | done k => simp [limit.loop, Seq.callFrom, Run.seen, Seq.takeFrom]
    | crash => simp [limit.loop, Seq.callFrom, Run.seen, Seq.takeFrom]
    | yield v s =>
      have hw : wrap (cnt - 1) = cnt - 1 := wrap_eq_self (by omega) (by omega)
      simp only [limit.loop, hpos, if_false, Seq.callFrom, collect, Seq.takeFrom]
      have := ih f (P.resume s true) (acc ++ [v]) (cnt - 1) (by omega) (by omega) (by omega)
      simp only [limit, hw] at this ⊢
      simpa using this

/-- C1 (limit exactness).  For every producer `P` and every count `N` that a Go
`int` can hold, a fresh `limit(P, N)` driven by a step that always continues
hands over exactly the first `N` values of `P` (all of them when `P` has fewer),
in the order of `P`, and the drive is over within `N` callback invocations; for
`N <= 0` it hands over nothing.  When `P` is finite with values `xs`, these are
the first `min(N, |xs|)` values of `xs`, and all of `xs` when `N >= |xs|`. -/
theorem limit_exactness {κ σ T : Type} (P : Seq κ σ T) (N : Int) (hN : N < 2 ^ 63) :
    (∀ fuel, N.toNat ≤ fuel → (limit P N).yielded fuel = some (P.take N.toNat)) ∧
    (N ≤ 0 → ∀ fuel, (limit P N).yielded fuel = some []) ∧
    (∀ f k xs, P.call collect f [] = .returned k xs →
        P.take N.toNat = xs.take N.toNat ∧
        (P.take N.toNat).length = min N.toNat xs.length ∧
        (xs.length ≤ N.toNat → P.take N.toNat = xs)) := by
  have key : ∀ fuel, N.toNat ≤ fuel → (limit P N).yielded fuel = some (P.take N.toNat) := by
    intro fuel hf
    have := limit_collect_from P N N.toNat fuel (P.enter P.vars) [] N rfl hN hf
    simpa [Seq.yielded, Seq.call, Seq.take, limit] using this
  refine ⟨key, ?_, ?_⟩
  · intro h0 fuel
    have hz : N.toNat = 0 := by omega
    have := key fuel (by omega)
    simpa [hz, Seq.take, Seq.takeFrom] using this
  · intro f k xs h
    obtain ⟨rest, hx, he⟩ := emits_of_callFrom P f _ _ _ _ h
    simp only [List.nil_append] at hx
    subst hx
    have ht : P.take N.toNat = xs.take N.toNat := takeFrom_of_emits P he _
    refine ⟨ht, ?_, ?_⟩
    · rw [ht, List.length_take]
    · intro hl
      rw [ht, List.take_of_length_le hl]

/-- Witness for C1: a range of five integers limited to two. -/
theorem limit_exactness_witness :
    (2 : Int) < 2 ^ 63 ∧ (limit (intsFromTo 0 5) 2).yielded 2 = some [0, 1] :=
  ⟨by decide, (limit_exactness (intsFromTo 0 5) 2 (by decide)).1 2 (by decide)⟩

/-! ### Fuel -/

theorem callFrom_mono {κ σ T S : Type} (p : Seq κ σ T) (step : T → S → Bool × S) :
    ∀ (f : Nat) (a : Susp κ σ T) (s : S), (p.callFrom step f a s).seen ≠ none →
      ∀ g, f ≤ g → p.callFrom step g a s = p.callFrom step f a s := by
  intro f
  induction f with
  | zero =>
    intro a s h g _
    cases a with
    | done k => cases g <;> rfl
    | crash => cases g <;> rfl
    | yield v st => simp [Seq.callFrom, Run.seen] at h
  | succ f ih =>
    intro a s h g hg
    obtain ⟨g1, rfl⟩ : ∃ g1, g = g1 + 1 := ⟨g - 1, by omega⟩
    cases a with
    | done k => rfl
    | crash => rfl
    | yield v st =>
      simp only [Seq.callFrom] at h ⊢
      exact ih _ _ h g1 (by omega)

theorem rangeFrom_mono {κ σ T S : Type} (p : Seq κ σ T) (body : T → S → Bool × S) :
    ∀ (f : Nat) (a : Susp κ σ T) (s : S), (p.rangeFrom body f a s).seen ≠ none →
      ∀ g, f ≤ g → p.rangeFrom body g a s = p.rangeFrom body f a s := by
  intro f
  induction f with
  | zero =>
    intro a s h g _
    cases a with
    | done k => cases g <;> rfl
    | crash => cases g <;> rfl
    | yield v st => simp [Seq.rangeFrom, Run.seen] at h
  | succ f ih =>
    intro a s h g hg
    obtain ⟨g1, rfl⟩ : ∃ g1, g = g1 + 1 := ⟨g - 1, by omega⟩
    cases a with
    | done k => rfl
    | crash => rfl
    | yield v st =>
      simp only [Seq.rangeFrom] at h ⊢
      by_cases hb : (body v s).1 = true
      · simp only [hb, if_true] at h ⊢
        exact ih _ _ h g1 (by omega)
      · simp [hb]

/-! ### Closed forms -/

theorem takeFrom_done {κ σ T : Type} (p : Seq κ σ T) (n : Nat) (k : κ) :
    p.takeFrom n (.done k) = [] := by
  cases n <;> rfl

theorem takeFrom_crash {κ σ T : Type} (p : Seq κ σ T) (n : Nat) :
    p.takeFrom n (.crash) = [] := by
  cases n <;> rfl

theorem takeFrom_limit {κ σ T : Type} (P : Seq κ σ T) (c0 : Int) :
    ∀ (n m : Nat) (a : Susp κ σ T) (cnt : Int), cnt.toNat = m → cnt < 2 ^ 63 →
      (limit P c0).takeFrom n (limit.loop P a cnt) = P.takeFrom (min n m) a := by
  intro n
  induction n with
  | zero => intro m a cnt _ _; simp [Seq.takeFrom]
  | succ n ih =>
    intro m a cnt hc hlt
    cases a with
    | done k => simp [limit.loop, takeFrom_done]
    | crash => simp [limit.loop, takeFrom_crash]
    | yield v s =>
      by_cases hle : cnt ≤ 0
      · have hm : m = 0 := by omega
        subst hm
        simp only [limit.loop, hle, if_true, limit.leave]
        cases P.resume s false <;> simp [Seq.takeFrom]
      · have hw : wrap (cnt - 1) = cnt - 1 := wrap_eq_self (by omega) (by omega)
        obtain ⟨m1, rfl⟩ : ∃ m1, m = m1 + 1 := ⟨m - 1, by omega⟩
        have := ih m1 (P.resume s true) (cnt - 1) (by omega) (by omega)
        simp only [limit.loop, hle, if_false, Seq.takeFrom, hw, Nat.add_min_add_right]
        simpa [limit] using this

theorem take_limit {κ σ T : Type} (P : Seq κ σ T) (N : Int) (hN : N < 2 ^ 63) (n : Nat) :
    (limit P N).take n = P.take (min n N.toNat) := by
  simpa [Seq.take, limit] using takeFrom_limit P N n N.toNat (P.enter P.vars) N rfl hN

theorem takeFrom_numbersFrom (i0 : Int) :
    ∀ (n : Nat) (i : Int), -2 ^ 63 ≤ i → i + n ≤ 2 ^ 63 →
      (numbersFrom i0).takeFrom n (.yield i i)
        = (List.range n).map (fun (j : Nat) => i + (j : Int)) := by
  intro n
  induction n with
  | zero => intro i _ _; simp [Seq.takeFrom]
  | succ n ih =>
    intro i h1 h2
    rw [List.range_succ_eq_map]
    simp only [Seq.takeFrom, numbersFrom, if_true, List.map_cons, List.map_map]
    cases n with
    | zero => simp [Seq.takeFrom]
    | succ n =>
      have hw : wrap (i + 1) = i + 1 := wrap_eq_self (by omega) (by push_cast at h2; omega)
      rw [hw]
      have := ih (i + 1) (by omega) (by push_cast at h2 ⊢; omega)
      simp only [numbersFrom] at this
      rw [this]
      simp only [List.cons.injEq]
      refine ⟨by simp, ?_⟩
      apply List.map_congr_left
      intro j _
      simp only [Function.comp, Nat.succ_eq_add_one]
      push_cast
      ring

theorem take_numbersFrom (i : Int) (n : Nat) (h1 : -2 ^ 63 ≤ i) (h2 : i + n ≤ 2 ^ 63) :
    (numbersFrom i).take n = (List.range n).map (fun (j : Nat) => i + (j : Int)) := by
  simpa [Seq.take, numbersFrom] using takeFrom_numbersFrom i n i h1 h2

theorem takeFrom_fibs_loop :
    ∀ (n m : Nat),
      fibs.takeFrom n (.yield (fibSpec (m + 1)) (.inLoop, fibSpec m, fibSpec (m + 1)))
        = (List.range n).map (fun (j : Nat) => fibSpec (m + 1 + j)) := by
  intro n
  induction n with
  | zero => intro m; simp [Seq.takeFrom]
  | succ n ih =>
    intro m
    rw [List.range_succ_eq_map]
    have h2 : fibSpec m + fibSpec (m + 1) = fibSpec (m + 1 + 1) := by
      simp only [fibSpec]; ring
    have := ih (m + 1)
    simp only [Seq.takeFrom, fibs, Bool.not_true, Bool.false_eq_true, if_false, List.map_cons,
      List.map_map, h2] at this ⊢
    rw [this]
    simp only [List.cons.injEq]
    refine ⟨by simp, ?_⟩
    apply List.map_congr_left
    intro j _
    simp only [Function.comp, Nat.succ_eq_add_one]
    congr 1
    omega

theorem take_fibs (n : Nat) : fibs.take n = (List.range n).map fibSpec := by
  cases n with
  | zero => simp [Seq.take, Seq.takeFrom]
  | succ n =>
    have := takeFrom_fibs_loop n 0
    rw [List.range_succ_eq_map]
    simp only [Seq.take, Seq.takeFrom, fibs, Bool.not_true, Bool.false_eq_true, if_false,
      List.map_cons, List.map_map] at this ⊢
    simp only [fibSpec] at this
    rw [this]
    simp only [List.cons.injEq]
    refine ⟨by simp [fibSpec], ?_⟩
    apply List.map_congr_left
    intro j _
    simp only [Function.comp, Nat.succ_eq_add_one]
    congr 1
    omega

/-! ### `zip` -/

theorem pullNext_eq {κ σ T : Type} (p : Seq κ σ T) (c : Cursor κ σ) :
    pullNext p c =
      match Cursor.ahead p c with
      | .done k => some (none, .closed k)
      | .yield v s => some (some v, .suspended s)
      | .crash => none := by
  cases c <;> simp [pullNext, Cursor.ahead]

theorem zip_leave_seen {κa σa T κb σb U : Type} (a : Seq κa σa T) (b : Seq κb σb U)
    (ca : Cursor κa σa) (cb : Cursor κb σb) (fuel : Nat) (acc : List (T × U)) :
    ((zip a b).callFrom collect fuel (zip.leave a b ca cb) acc).seen = some acc := by
  unfold zip.leave
  cases pullStop b cb <;> cases pullStop a ca <;> cases fuel <;>
    simp [Seq.callFrom, Run.seen]

theorem zip_collect_from {κa σa T κb σb U : Type} (a : Seq κa σa T) (b : Seq κb σb U) :
    ∀ (n fuel : Nat) (ca : Cursor κa σa) (cb : Cursor κb σb) (acc : List (T × U)),
      n ≤ fuel →
      ((a.takeFrom n (Cursor.ahead a ca)).length < n ∨
        (b.takeFrom n (Cursor.ahead b cb)).length < n) →
      ((zip a b).callFrom collect fuel (zip.advance a b ca cb) acc).seen
        = some (acc ++ List.zip (a.takeFrom n (Cursor.ahead a ca))
            (b.takeFrom n (Cursor.ahead b cb))) := by
  intro n
  induction n with
  | zero => intro fuel ca cb acc _ h; simp at h
  | succ n ih =>
    intro fuel ca cb acc hf h
    obtain ⟨f, rfl⟩ : ∃ f, fuel = f + 1 := ⟨fuel - 1, by omega⟩
    unfold zip.advance
    rw [pullNext_eq a ca, pullNext_eq b cb]
    cases ha : Cursor.ahead a ca with
    | crash => simp [Seq.callFrom, Run.seen, Seq.takeFrom]
    | done k =>
      cases hb : Cursor.ahead b cb with
      | crash => simp [Seq.callFrom, Run.seen, Seq.takeFrom]
      | done k2 => simpa [Seq.takeFrom] using zip_leave_seen a b _ _ (f + 1) acc
      | yield w t => simpa [Seq.takeFrom] using zip_leave_seen a b _ _ (f + 1) acc
    | yield v s =>
      cases hb : Cursor.ahead b cb with
      | crash => simp [Seq.callFrom, Run.seen, Seq.takeFrom]
      | done k2 => simpa [Seq.takeFrom] using zip_leave_seen a b _ _ (f + 1) acc
      | yield w t =>
        rw [ha, hb] at h
        simp only [Seq.takeFrom, List.length_cons, Nat.add_lt_add_iff_right] at h
        have := ih f (.suspended s) (.suspended t) (acc ++ [(v, w)]) (by omega)
          (by simpa [Cursor.ahead] using h)
        simp only [Seq.callFrom, collect, Seq.takeFrom, List.zip_cons_cons]
        simpa [zip, Cursor.ahead] using this

/-- C2 (zip length).  Whenever one of two fresh producers runs out before its
`n`-th value, a drive of `zip(a, b)` by a step that always continues hands over
exactly the pairs (i-th value of `a`, i-th value of `b`), as many as the shorter
side has, and is over within `n` callback invocations; for two finite producers
with values `xs` and `ys` these are the `min(|xs|, |ys|)` pairs of `xs` zipped
with `ys`.  In particular `zip(limit(numbersFrom(0), 150), limit(fibs(), 200))`
hands over exactly the 150 pairs `(i, f(i))`, `i = 0 .. 149`. -/
theorem zip_pairs :
    (∀ (κa σa T κb σb U : Type) (a : Seq κa σa T) (b : Seq κb σb U) (n : Nat),
      ((a.take n).length < n ∨ (b.take n).length < n) →
        (∀ fuel, n ≤ fuel → (zip a b).yielded fuel = some (List.zip (a.take n) (b.take n))) ∧
        (List.zip (a.take n) (b.take n)).length = min (a.take n).length (b.take n).length ∧
        (∀ (i : Nat) (x : T) (y : U), (a.take n)[i]? = some x → (b.take n)[i]? = some y →
          (List.zip (a.take n) (b.take n))[i]? = some (x, y))) ∧
    (∀ (κa σa T κb σb U : Type) (a : Seq κa σa T) (b : Seq κb σb U)
      (f g : Nat) (ka : κa) (kb : κb) (xs : List T) (ys : List U),
      a.call collect f [] = .returned ka xs → b.call collect g [] = .returned kb ys →
        (∀ fuel, max xs.length ys.length + 1 ≤ fuel →
          (zip a b).yielded fuel = some (List.zip xs ys)) ∧
        (List.zip xs ys).length = min xs.length ys.length) ∧
    (∀ fuel, 151 ≤ fuel →
      (zip (limit (numbersFrom 0) 150) (limit fibs 200)).yielded fuel
        = some ((List.range 150).map (fun (i : Nat) => ((i : Int), fibSpec i)))) := by
  have gen : ∀ (κa σa T κb σb U : Type) (a : Seq κa σa T) (b : Seq κb σb U) (n : Nat),
      ((a.take n).length < n ∨ (b.take n).length < n) →
        ∀ fuel, n ≤ fuel → (zip a b).yielded fuel = some (List.zip (a.take n) (b.take n)) := by
    intro κa σa T κb σb U a b n h fuel hf
    have := zip_collect_from a b n fuel (.fresh a.vars) (.fresh b.vars) [] hf
      (by simpa [Cursor.ahead, Seq.take] using h)
    simpa [Seq.yielded, Seq.call, Seq.take, zip, Cursor.ahead] using this
  refine ⟨?_, ?_, ?_⟩
  · intro κa σa T κb σb U a b n h
    refine ⟨gen _ _ _ _ _ _ a b n h, by simp [List.length_zip], ?_⟩
    intro i x y hx hy
    rw [List.getElem?_zip_eq_some]
    exact ⟨hx, hy⟩
  · intro κa σa T κb σb U a b f g ka kb xs ys ha hb
    obtain ⟨rx, hrx, hea⟩ := emits_of_callFrom a f _ _ _ _ ha
    obtain ⟨ry, hry, heb⟩ := emits_of_callFrom b g _ _ _ _ hb
    simp only [List.nil_append] at hrx hry
    subst hrx hry
    refine ⟨?_, by simp [List.length_zip]⟩
    intro fuel hf
    have hta : a.take (max xs.length ys.length + 1) = xs := by
      have := takeFrom_of_emits a hea (max xs.length ys.length + 1)
      rw [List.take_of_length_le (by omega)] at this
      exact this
    have htb : b.take (max xs.length ys.length + 1) = ys := by
      have := takeFrom_of_emits b heb (max xs.length ys.length + 1)
      rw [List.take_of_length_le (by omega)] at this
      exact this
    have := gen _ _ _ _ _ _ a b (max xs.length ys.length + 1)
      (by rw [hta]; left; omega) fuel hf
    rw [hta, htb] at this
    exact this
  · intro fuel hf
    have hta : (limit (numbersFrom 0) 150).take 151
        = (List.range 150).map (fun (j : Nat) => (0 : Int) + (j : Int)) := by
      rw [take_limit _ _ (by decide)]
      exact take_numbersFrom 0 150 (by decide) (by decide)
    have htb : (limit fibs 200).take 151 = (List.range 151).map fibSpec := by
      rw [take_limit _ _ (by decide)]
      exact take_fibs 151
    have := gen _ _ _ _ _ _ (limit (numbersFrom 0) 150) (limit fibs 200) 151
      (by rw [hta]; left; simp) fuel hf
    rw [this, hta, htb, List.zip_eq_zip_take_min]
    simp only [List.length_map, List.length_range, ← List.map_take, List.take_range]
    have h150 : min (min 150 151) 150 = 150 := by decide
    have h151 : min (min 150 151) 151 = 150 := by decide
    rw [h150, h151, List.zip_map']
    simp

/-- Witness for C2: three numbers zipped with the first five Fibonacci values. -/
theorem zip_pairs_witness :
    ((limit (numbersFrom 0) 3).take 4).length < 4 ∧
      (zip (limit (numbersFrom 0) 3) (limit fibs 5)).yielded 4
        = some [(0, 1), (1, 1), (2, 2)] :=
  ⟨by decide, (zip_pairs.1 _ _ _ _ _ _ (limit (numbersFrom 0) 3) (limit fibs 5) 4
    (Or.inl (by decide))).1 4 (by decide)⟩

theorem rangeFrom_reduce_of_emits {κ σ T U E : Type} (P : Seq κ σ T)
    (combine : U → T → U × Option E) {a : Susp κ σ T} {xs : List T} {k : κ}
    (h : P.Emits a xs k) :
    ∀ (u : U), NeverFails combine u xs → ∀ fuel, xs.length ≤ fuel →
      P.rangeFrom (reduce.body combine) fuel a (u, none)
        = .returned k (xs.foldl (fun u v => (combine u v).1) u, none) := by
  induction h with
  | done k => intro u _ fuel _; cases fuel <;> simp [Seq.rangeFrom]
  | yield v s xs k _ ih =>
    intro u hn fuel hf
    obtain ⟨f, rfl⟩ : ∃ f, fuel = f + 1 := ⟨fuel - 1, by simp at hf; omega⟩
    obtain ⟨h1, h2⟩ := hn
    have hc : combine u v = ((combine u v).1, none) := Prod.ext rfl h1
    simp only [Seq.rangeFrom, reduce.body, h1, Option.isSome_none, Bool.false_eq_true, if_false,
      if_true, List.foldl_cons]
    rw [hc]
    exact ih _ h2 f (by simp at hf; omega)

theorem takeFrom_succ_eq_cons {κ σ T : Type} (P : Seq κ σ T) {n : Nat} {a : Susp κ σ T}
    {x : T} {xs : List T} (h : P.takeFrom (n + 1) a = x :: xs) :
    ∃ s, a = .yield x s ∧ P.takeFrom n (P.resume s true) = xs := by
  cases a with
  | done k => simp [Seq.takeFrom] at h
  | crash => simp [Seq.takeFrom] at h
  | yield v s =>
    simp only [Seq.takeFrom, List.cons.injEq] at h
    exact ⟨s, by rw [h.1], h.2⟩

theorem rangeFrom_reduce_fail {κ σ T U E : Type} (P : Seq κ σ T)
    (combine : U → T → U × Option E) (v : T) (e : E) :
    ∀ (pre : List T) (a : Susp κ σ T) (u : U) (err0 : Option E),
      P.takeFrom (pre.length + 1) a = pre ++ [v] → NeverFails combine u pre →
      (combine (pre.foldl (fun u v => (combine u v).1) u) v).2 = some e →
      ∀ fuel, pre.length + 1 ≤ fuel →
        P.rangeFrom (reduce.body combine) fuel a (u, err0)
          = match P.feed (List.replicate pre.length true ++ [false]) a with
            | .done kf => .returned kf (combine (pre.foldl (fun u v => (combine u v).1) u) v)
            | _ => .panicked (combine (pre.foldl (fun u v => (combine u v).1) u) v) := by
  intro pre
  induction pre with
  | nil =>
    intro a u err0 ht _ hf fuel hfuel
    obtain ⟨f, rfl⟩ : ∃ f, fuel = f + 1 := ⟨fuel - 1, by simp at hfuel; omega⟩
    obtain ⟨s, rfl, -⟩ := takeFrom_succ_eq_cons P (by simpa using ht)
    simp only [List.foldl_nil] at hf
    simp [Seq.rangeFrom, reduce.body, hf, Seq.feed]
  | cons x pre ih =>
    intro a u err0 ht hn hf fuel hfuel
    obtain ⟨f, rfl⟩ : ∃ f, fuel = f + 1 := ⟨fuel - 1, by simp at hfuel; omega⟩
    obtain ⟨s, rfl, ht2⟩ := takeFrom_succ_eq_cons P (by simpa using ht)
    obtain ⟨h1, h2⟩ := hn
    simp only [List.foldl_cons] at hf
    have := ih (P.resume s true) (combine u x).1 (combine u x).2 ht2 h2 hf f
      (by simp at hfuel; omega)
    simp only [Seq.rangeFrom, reduce.body, h1, Option.isSome_none, Bool.false_eq_true, if_false,
      if_true, List.foldl_cons, List.length_cons, List.replicate_succ, List.cons_append, Seq.feed]
    exact this

theorem feed_stop_done {κ σ T : Type} (P : Seq κ σ T) (hP : P.Obeys) :
    ∀ (n : Nat) (a : Susp κ σ T), (P.takeFrom (n + 1) a).length = n + 1 →
      ∃ kf, P.feed (List.replicate n true ++ [false]) a = .done kf := by
  intro n
  induction n with
  | zero =>
    intro a h
    cases a with
    | done k => simp [Seq.takeFrom] at h
    | crash => simp [Seq.takeFrom] at h
    | yield v s => simpa [Seq.feed] using hP s
  | succ n ih =>
    intro a h
    cases a with
    | done k => simp [Seq.takeFrom] at h
    | crash => simp [Seq.takeFrom] at h
    | yield v s =>
      simp only [Seq.takeFrom, List.length_cons, Nat.add_right_cancel_iff] at h
      simpa [Seq.feed, List.replicate_succ] using ih (P.resume s true) h

theorem record_stop {κ σ T : Type} (P : Seq κ σ T) (v : T) :
    ∀ (pre : List T) (a : Susp κ σ T), P.takeFrom (pre.length + 1) a = pre ++ [v] →
      P.record (List.replicate pre.length true ++ [false]) a
        = pre.map (fun x => (x, true)) ++ [(v, false)] := by
  intro pre
  induction pre with
  | nil =>
    intro a ht
    obtain ⟨s, rfl, -⟩ := takeFrom_succ_eq_cons P (by simpa using ht)
    simp [Seq.record]
  | cons x pre ih =>
    intro a ht
    obtain ⟨s, rfl, ht2⟩ := takeFrom_succ_eq_cons P (by simpa using ht)
    simp [Seq.record, List.replicate_succ, ih _ ht2]

theorem spy_takeFrom {κ σ T : Type} (P : Seq κ σ T) :
    ∀ (n : Nat) (a : Susp κ σ T) (log : List (T × Bool)),
      (spy P).takeFrom n (spy.watch a log) = P.takeFrom n a := by
  intro n
  induction n with
  | zero => intro a log; simp [Seq.takeFrom]
  | succ n ih =>
    intro a log
    cases a with
    | done k => simp [spy.watch, Seq.takeFrom]
    | crash => simp [spy.watch, Seq.takeFrom]
    | yield v s =>
      simp only [spy.watch, Seq.takeFrom, List.cons.injEq, true_and]
      exact ih _ _

theorem spy_take {κ σ T : Type} (P : Seq κ σ T) (n : Nat) : (spy P).take n = P.take n := by
  simpa [Seq.take, spy] using spy_takeFrom P n (P.enter P.vars) []

theorem spy_feed {κ σ T : Type} (P : Seq κ σ T) :
    ∀ (bs : List Bool) (a : Susp κ σ T) (log : List (T × Bool)),
      (spy P).feed bs (spy.watch a log) = spy.watch (P.feed bs a) (log ++ P.record bs a) := by
  intro bs
  induction bs with
  | nil => intro a log; simp [Seq.feed, Seq.record]
  | cons b bs ih =>
    intro a log
    cases a with
    | done k => simp [spy.watch, Seq.feed, Seq.record]
    | crash => simp [spy.watch, Seq.feed, Seq.record]
    | yield v s =>
      simp only [spy.watch, Seq.feed, Seq.record]
      have := ih (P.resume s b) (log ++ [(v, b)])
      simpa [spy] using this

theorem spy_obeys {κ σ T : Type} (P : Seq κ σ T) (hP : P.Obeys) : (spy P).Obeys := by
  intro s
  obtain ⟨k, hk⟩ := hP s.1
  exact ⟨(k, s.2.2 ++ [(s.2.1, false)]), by simp [spy, hk, spy.watch]⟩

theorem neverFails_recorded {T U E : Type} (combine : U → T → U × Option E) :
    ∀ (pre : List T) (u : U) (r : List (T × Option E)), NeverFails combine u pre →
      NeverFails (recorded combine) (u, r) pre ∧
      pre.foldl (fun st v => (recorded combine st v).1) (u, r)
        = (pre.foldl (fun u v => (combine u v).1) u, r ++ pre.map (fun x => (x, none))) := by
  intro pre
  induction pre with
  | nil => intro u r _; simp [NeverFails]
  | cons x pre ih =>
    intro u r h
    obtain ⟨h1, h2⟩ := h
    obtain ⟨i1, i2⟩ := ih (combine u x).1 (r ++ [(x, (combine u x).2)]) h2
    refine ⟨⟨by simpa [recorded] using h1, by simpa [recorded] using i1⟩, ?_⟩
    simp only [List.foldl_cons, recorded, List.map_cons] at i2 ⊢
    rw [i2, h1]
    simp

/-! ### The stop rule, producer by producer -/

theorem obeys_numbersFrom (i : Int) : (numbersFrom i).Obeys :=
  fun s => ⟨s, by simp [numbersFrom]⟩

theorem obeys_intsFrom (i : Int) : (intsFrom i).Obeys :=
  fun s => ⟨s, by simp [intsFrom]⟩

theorem obeys_intsFromTo (i j : Int) : (intsFromTo i j).Obeys :=
  fun s => ⟨wrap (s + 1), by simp [intsFromTo]⟩

theorem obeys_fibs : fibs.Obeys := by
  rintro ⟨at_, a, b⟩
  cases at_ <;> exact ⟨(a, b), by simp [fibs]⟩

theorem obeys_limit {κ σ T : Type} (src : Seq κ σ T) (cnt : Int) (h : src.Obeys) :
    (limit src cnt).Obeys := by
  intro s
  obtain ⟨k, hk⟩ := h s.1
  exact ⟨(k, s.2), by simp [limit, limit.leave, hk]⟩

theorem obeys_limit2 {κ σ T U : Type} (src : Seq κ σ (T × U)) (cnt : Int) (h : src.Obeys) :
    (limit2 src cnt).Obeys := by
  intro s
  obtain ⟨k, hk⟩ := h s.1
  exact ⟨(k, s.2), by simp [limit2, limit2.leave, hk]⟩

theorem pullStop_of_obeys {κ σ T : Type} (p : Seq κ σ T) (h : p.Obeys) (c : Cursor κ σ) :
    ∃ k, pullStop p c = some (.closed k) := by
  cases c with
  | fresh k => exact ⟨k, rfl⟩
  | closed k => exact ⟨k, rfl⟩
  | suspended s =>
    obtain ⟨k, hk⟩ := h s
    exact ⟨k, by simp [pullStop, hk]⟩

theorem zip_leave_of_obeys {κa σa T κb σb U : Type} (a : Seq κa σa T) (b : Seq κb σb U)
    (ha : a.Obeys) (hb : b.Obeys) (ca : Cursor κa σa) (cb : Cursor κb σb) :
    ∃ ka kb, zip.leave a b ca cb = .done (.closed ka, .closed kb) := by
  obtain ⟨ka, hka⟩ := pullStop_of_obeys a ha ca
  obtain ⟨kb, hkb⟩ := pullStop_of_obeys b hb cb
  exact ⟨ka, kb, by simp [zip.leave, hka, hkb]⟩

theorem obeys_zip {κa σa T κb σb U : Type} (a : Seq κa σa T) (b : Seq κb σb U)
    (ha : a.Obeys) (hb : b.Obeys) : (zip a b).Obeys := by
  intro s
  obtain ⟨ka, kb, h⟩ := zip_leave_of_obeys a b ha hb s.1 s.2
  exact ⟨(.closed ka, .closed kb), by simp [zip, h]⟩

/-! ### `reduce` -/

theorem reduce_fail_state {κ σ T U E : Type} (P : Seq κ σ T) (u0 : U)
    (combine : U → T → U × Option E) (pre : List T) (v : T) (e : E)
    (ht : P.take (pre.length + 1) = pre ++ [v]) (hn : NeverFails combine u0 pre)
    (hf : (combine (pre.foldl (fun u v => (combine u v).1) u0) v).2 = some e)
    (fuel : Nat) (hfuel : pre.length + 1 ≤ fuel) :
    reduce P u0 combine fuel
      = match P.feed (List.replicate pre.length true ++ [false]) (P.enter P.vars) with
        | .done kf =>
            .returned kf ((combine (pre.foldl (fun u v => (combine u v).1) u0) v).1, some e)
        | _ => .panicked ((combine (pre.foldl (fun u v => (combine u v).1) u0) v).1, some e) := by
  have := rangeFrom_reduce_fail P combine v e pre (P.enter P.vars) u0 none ht hn hf fuel hfuel
  have hc : combine (pre.foldl (fun u v => (combine u v).1) u0) v
      = ((combine (pre.foldl (fun u v => (combine u v).1) u0) v).1, some e) := Prod.ext rfl hf
  rw [hc] at this
  simpa [reduce, Seq.forRange] using this

/-- C3, as the code has it.  When `combine` first fails on the k-th element
(after `pre`, the first k-1 elements, on the element `v`), `reduce` stops there
and the accumulator it hands back with the failure is the one that the failing
call of `combine` returned, that call having been given the fold of the first
k-1 combinations; a producer that obeys the stop rule makes `reduce` return. -/
theorem reduce_failure_accumulator {κ σ T U E : Type} (P : Seq κ σ T) (u0 : U)
    (combine : U → T → U × Option E) (pre : List T) (v : T) (e : E)
    (ht : P.take (pre.length + 1) = pre ++ [v]) (hn : NeverFails combine u0 pre)
    (hf : (combine (pre.foldl (fun u v => (combine u v).1) u0) v).2 = some e) :
    ∀ fuel, pre.length + 1 ≤ fuel →
      (reduce P u0 combine fuel).state
        = ((combine (pre.foldl (fun u v => (combine u v).1) u0) v).1, some e) ∧
      (P.Obeys → ∃ kf, reduce P u0 combine fuel
        = .returned kf ((combine (pre.foldl (fun u v => (combine u v).1) u0) v).1, some e)) := by
  intro fuel hfuel
  have h := reduce_fail_state P u0 combine pre v e ht hn hf fuel hfuel
  refine ⟨?_, ?_⟩
  · rw [h]
    cases P.feed (List.replicate pre.length true ++ [false]) (P.enter P.vars) <;> rfl
  · intro hP
    obtain ⟨kf, hk⟩ := feed_stop_done P hP pre.length (P.enter P.vars)
      (by have := congrArg List.length ht; simpa [Seq.take] using this)
    exact ⟨kf, by rw [h, hk]⟩

/-- Witness for C3: the range 1, 2, 3 with a combine that fails on 2 and hands
back `-1`. -/
theorem reduce_failure_accumulator_witness :
    (reduce (intsFromTo 1 4) (0 : Int)
      (fun agg val => if val = 2 then (-1, some (7 : Nat)) else (agg + val, none)) 2).state
      = (-1, some 7) :=
  (reduce_failure_accumulator (intsFromTo 1 4) (0 : Int)
    (fun agg val => if val = 2 then (-1, some (7 : Nat)) else (agg + val, none))
    [1] 2 7 (by decide) ⟨by decide, trivial⟩ (by decide) 2 (by decide)).1

/-- Counterexample to C3 as stated: on the range 1, 2, 3 the combine function
succeeds on 1 (accumulator 1) and first fails on 2, the second element,
returning `-1` with the failure; `reduce` returns `-1` with that failure, not
the accumulator 1 that the first successful combination had produced. -/
theorem reduce_failure_accumulator_counterexample :
    ((if (1 : Int) = 2 then ((-1 : Int), some (7 : Nat)) else (0 + 1, none)) = (1, none)) ∧
    reduce (intsFromTo 1 4) (0 : Int)
        (fun agg val => if val = 2 then (-1, some (7 : Nat)) else (agg + val, none)) 2
      = .returned 3 (-1, some 7) ∧
    ¬ ((reduce (intsFromTo 1 4) (0 : Int)
        (fun agg val => if val = 2 then (-1, some (7 : Nat)) else (agg + val, none)) 2).state.1
      = [(1 : Int)].foldl (fun agg val => agg + val) 0) := by
  decide

theorem state_mapState {κ S S1 : Type} (g : S → S1) (r : Run κ S) :
    (r.mapState g).state = g r.state := by
  cases r <;> rfl

theorem rangeFrom_recorded_erase {κ σ T U E : Type} (P : Seq κ σ T)
    (combine : U → T → U × Option E) :
    ∀ (fuel : Nat) (a : Susp κ σ T) (st : (U × List (T × Option E)) × Option E),
      (P.rangeFrom (reduce.body (recorded combine)) fuel a st).mapState
          (fun st => (st.1.1, st.2))
        = P.rangeFrom (reduce.body combine) fuel a (st.1.1, st.2) := by
  intro fuel
  induction fuel with
  | zero => intro a st; cases a <;> rfl
  | succ f ih =>
    intro a st
    cases a with
    | done k => rfl
    | crash => rfl
    | yield v s =>
      cases he : (combine st.1.1 v).2 with
      | none =>
        have hc : combine st.1.1 v = ((combine st.1.1 v).1, none) := Prod.ext rfl he
        have := ih (P.resume s true) (recorded combine st.1 v)
        simp only [recorded, he] at this
        simp only [Seq.rangeFrom, reduce.body, recorded, he, Option.isSome_none,
          Bool.false_eq_true, if_false, if_true]
        rw [this]
        conv_rhs => rw [hc]
      | some e =>
        have hc : combine st.1.1 v = ((combine st.1.1 v).1, some e) := Prod.ext rfl he
        simp only [Seq.rangeFrom, reduce.body, recorded, he, Option.isSome_some, if_true]
        conv_rhs => rw [hc]
        cases P.resume s false <;> simp [Run.mapState]

theorem reduce_recorded_erase {κ σ T U E : Type} (P : Seq κ σ T) (u0 : U)
    (combine : U → T → U × Option E) (fuel : Nat) :
    (reduce P (u0, []) (recorded combine) fuel).mapState (fun st => (st.1.1, st.2))
      = reduce P u0 combine fuel :=
  rangeFrom_recorded_erase P combine fuel (P.enter P.vars) ((u0, []), none)

theorem rangeFrom_recorded_inv {κ σ T U E : Type} (P : Seq κ σ T)
    (combine : U → T → U × Option E) :
    ∀ (fuel : Nat) (a : Susp κ σ T) (st : (U × List (T × Option E)) × Option E),
      st.2 = none → (∀ x ∈ st.1.2, x.2 = none) →
      (((P.rangeFrom (reduce.body (recorded combine)) fuel a st).state.2).isSome = true ↔
        ∃ x ∈ (P.rangeFrom (reduce.body (recorded combine)) fuel a st).state.1.2,
          x.2.isSome = true) := by
  intro fuel
  induction fuel with
  | zero =>
    intro a st h1 h2
    have : (P.rangeFrom (reduce.body (recorded combine)) 0 a st).state = st := by
      cases a <;> rfl
    rw [this, h1]
    simp only [Option.isSome_none, Bool.false_eq_true, false_iff, not_exists, not_and]
    intro x hx
    simp [h2 x hx]
  | succ f ih =>
    intro a st h1 h2
    cases a with
    | done k =>
      simp only [Seq.rangeFrom, Run.state, h1, Option.isSome_none, Bool.false_eq_true, false_iff,
        not_exists, not_and]
      intro x hx
      simp [h2 x hx]
    | crash =>
      simp only [Seq.rangeFrom, Run.state, h1, Option.isSome_none, Bool.false_eq_true, false_iff,
        not_exists, not_and]
      intro x hx
      simp [h2 x hx]
    | yield v s =>
      cases he : (combine st.1.1 v).2 with
      | none =>
        have := ih (P.resume s true) (recorded combine st.1 v) (by simp [recorded, he])
          (by
            intro x hx
            simp only [recorded, List.mem_append, List.mem_singleton] at hx
            rcases hx with hx | hx
            · exact h2 x hx
            · rw [hx]; exact he)
        simpa [Seq.rangeFrom, reduce.body, recorded, he] using this
      | some e =>
        have hs : (P.rangeFrom (reduce.body (recorded combine)) (f + 1) (.yield v s) st).state
            = recorded combine st.1 v := by
          simp only [Seq.rangeFrom, reduce.body, recorded, he, Option.isSome_some, if_true]
          cases P.resume s false <;> simp [Run.state]
        rw [hs]
        simp only [recorded, he, Option.isSome_some, true_iff]
        exact ⟨(v, some e), by simp, rfl⟩

/-- C4 (reduce short-circuit).  With `combine` made to keep a record of its
invocations (which changes nothing else in the run), the error `reduce` ends
with is non-nil exactly when some invocation of `combine` failed.  When `combine` first fails on the
k-th element (after the k-1 elements `pre`, on `v`, with failure `e`) and the
producer obeys the stop rule, `reduce` returns exactly `e`; `combine` has been
invoked exactly k times, on `pre` and on `v` and on nothing after; and the
producer has had k calls of its step callback answered, `true` for each element
of `pre` and `false` for `v`, after which it returned. -/
theorem reduce_short_circuit {κ σ T U E : Type} (P : Seq κ σ T) (u0 : U)
    (combine : U → T → U × Option E) :
    (∀ fuel,
      (reduce P (u0, []) (recorded combine) fuel).mapState (fun st => (st.1.1, st.2))
        = reduce P u0 combine fuel ∧
      (((reduce P u0 combine fuel).state.2).isSome = true ↔
        ∃ x ∈ (reduce P (u0, []) (recorded combine) fuel).state.1.2, x.2.isSome = true)) ∧
    (∀ (pre : List T) (v : T) (e : E), P.Obeys →
      P.take (pre.length + 1) = pre ++ [v] → NeverFails combine u0 pre →
      (combine (pre.foldl (fun u v => (combine u v).1) u0) v).2 = some e →
      ∀ fuel, pre.length + 1 ≤ fuel →
        (∃ kf, reduce P u0 combine fuel
          = .returned kf ((combine (pre.foldl (fun u v => (combine u v).1) u0) v).1, some e)) ∧
        (∃ kf, reduce (spy P) (u0, []) (recorded combine) fuel
          = .returned (kf, pre.map (fun x => (x, true)) ++ [(v, false)])
              (((combine (pre.foldl (fun u v => (combine u v).1) u0) v).1,
                pre.map (fun x => (x, none)) ++ [(v, some e)]), some e))) := by
  refine ⟨?_, ?_⟩
  · intro fuel
    have her := reduce_recorded_erase P u0 combine fuel
    refine ⟨her, ?_⟩
    rw [← her, state_mapState]
    exact rangeFrom_recorded_inv P combine fuel (P.enter P.vars) ((u0, []), none) rfl (by simp)
  · intro pre v e hP ht hn hf fuel hfuel
    have hlen : (P.takeFrom (pre.length + 1) (P.enter P.vars)).length = pre.length + 1 := by
      have := congrArg List.length ht
      simpa [Seq.take] using this
    obtain ⟨kf, hk⟩ := feed_stop_done P hP pre.length (P.enter P.vars) hlen
    refine ⟨⟨kf, ?_⟩, ⟨kf, ?_⟩⟩
    · rw [reduce_fail_state P u0 combine pre v e ht hn hf fuel hfuel, hk]
    · obtain ⟨n1, n2⟩ := neverFails_recorded combine pre u0 [] hn
      have hf2 : (recorded combine
          (pre.foldl (fun st v => (recorded combine st v).1) (u0, [])) v).2 = some e := by
        rw [n2]; simpa [recorded] using hf
      have hts : (spy P).take (pre.length + 1) = pre ++ [v] := by rw [spy_take]; exact ht
      rw [reduce_fail_state (spy P) (u0, []) (recorded combine) pre v e hts n1 hf2 fuel hfuel]
      have hfeed := spy_feed P (List.replicate pre.length true ++ [false]) (P.enter P.vars) []
      have hrec := record_stop P v pre (P.enter P.vars) ht
      have he : (spy P).enter (spy P).vars = spy.watch (P.enter P.vars) [] := rfl
      rw [he, hfeed, hk, hrec, n2]
      simp [spy.watch, recorded, hf]

/-- Witness for C4: the range 1, 2, 3 with a combine that fails on 2. -/
theorem reduce_short_circuit_witness :
    ∃ kf, reduce (intsFromTo 1 4) (0 : Int)
      (fun agg val => if val = 2 then (-1, some (7 : Nat)) else (agg + val, none)) 2
      = .returned kf (-1, some 7) :=
  ((reduce_short_circuit (intsFromTo 1 4) (0 : Int)
    (fun agg val => if val = 2 then (-1, some (7 : Nat)) else (agg + val, none))).2
    [1] 2 7 (obeys_intsFromTo 1 4) (by decide) ⟨by decide, trivial⟩ (by decide) 2
    (by decide)).1

/-- C5 (reduce through exhaustion).  For a finite producer with values `xs` and
a combine function that fails on none of them, `reduce` returns the left fold
of `combine` over `xs` from the initial value, with a nil error, and leaves the
producer as the drive to exhaustion leaves it; for a producer that yields
nothing it returns the initial value with a nil error. -/
theorem reduce_exhaustion {κ σ T U E : Type} (P : Seq κ σ T) (f : Nat) (k : κ) (xs : List T)
    (h : P.call collect f [] = .returned k xs) (u0 : U) (combine : U → T → U × Option E)
    (hn : NeverFails combine u0 xs) :
    (∀ fuel, xs.length ≤ fuel →
      reduce P u0 combine fuel
        = .returned k (xs.foldl (fun u v => (combine u v).1) u0, (none : Option E))) ∧
    (xs = [] → ∀ fuel, reduce P u0 combine fuel = .returned k (u0, (none : Option E))) := by
  obtain ⟨rest, hx, he⟩ := emits_of_callFrom P f _ _ _ _ h
  simp only [List.nil_append] at hx
  subst hx
  have key : ∀ fuel, xs.length ≤ fuel →
      reduce P u0 combine fuel
        = .returned k (xs.foldl (fun u v => (combine u v).1) u0, (none : Option E)) :=
    fun fuel hf => rangeFrom_reduce_of_emits P combine he u0 hn fuel hf
  refine ⟨key, ?_⟩
  intro hnil fuel
  subst hnil
  simpa using key fuel (by simp)

/-- Witness for C5: summing the range 1, 2, 3. -/
theorem reduce_exhaustion_witness :
    reduce (intsFromTo 1 4) (0 : Int) (fun agg val => (wrap (agg + val), (none : Option Unit))) 3
      = .returned 4 (6, none) :=
  (reduce_exhaustion (intsFromTo 1 4) 3 4 [1, 2, 3] (by decide) (0 : Int)
    (fun agg val => (wrap (agg + val), (none : Option Unit)))
    ⟨rfl, rfl, rfl, trivial⟩).1 3 (by decide)

theorem takeFrom_succ_eq_append {κ σ T : Type} (P : Seq κ σ T) :
    ∀ (n : Nat) (a : Susp κ σ T), (P.takeFrom (n + 1) a).length = n + 1 →
      ∃ v, P.takeFrom (n + 1) a = P.takeFrom n a ++ [v] := by
  intro n
  induction n with
  | zero =>
    intro a h
    cases a with
    | done k => simp [Seq.takeFrom] at h
    | crash => simp [Seq.takeFrom] at h
    | yield v s => exact ⟨v, by simp [Seq.takeFrom]⟩
  | succ n ih =>
    intro a h
    cases a with
    | done k => simp [Seq.takeFrom] at h
    | crash => simp [Seq.takeFrom] at h
    | yield v s =>
      simp only [Seq.takeFrom, List.length_cons, Nat.add_right_cancel_iff] at h
      obtain ⟨w, hw⟩ := ih (P.resume s true) h
      refine ⟨w, ?_⟩
      have e1 : P.takeFrom (n + 1 + 1) (.yield v s)
          = v :: P.takeFrom (n + 1) (P.resume s true) := rfl
      have e2 : P.takeFrom (n + 1) (.yield v s) = v :: P.takeFrom n (P.resume s true) := rfl
      rw [e1, e2, hw]
      simp

theorem limit_drain {κ σ T : Type} (P : Seq κ σ T) (c0 : Int) :
    ∀ (n fuel : Nat) (a : Susp κ σ T) (acc : List T) (cnt : Int),
      cnt.toNat = n → cnt < 2 ^ 63 → n ≤ fuel → (P.takeFrom (n + 1) a).length = n + 1 →
      (limit P c0).callFrom collect fuel (limit.loop P a cnt) acc
        = match P.feed (List.replicate n true ++ [false]) a with
          | .done k => .returned (k, cnt - n) (acc ++ P.takeFrom n a)
          | _ => .panicked (acc ++ P.takeFrom n a) := by
  intro n
  induction n with
  | zero =>
    intro fuel a acc cnt hc _ _ hl
    have hle : cnt ≤ 0 := by omega
    cases a with
    | done k => simp [Seq.takeFrom] at hl
    | crash => simp [Seq.takeFrom] at hl
    | yield v s =>
      simp only [limit.loop, hle, if_true, limit.leave, List.replicate_zero, List.nil_append,
        Seq.feed, Seq.takeFrom, List.append_nil, Nat.cast_zero, sub_zero]
      cases P.resume s false <;> cases fuel <;> simp [Seq.callFrom]
  | succ n ih =>
    intro fuel a acc cnt hc hlt hf hl
    have hpos : ¬ cnt ≤ 0 := by omega
    obtain ⟨f, rfl⟩ : ∃ f, fuel = f + 1 := ⟨fuel - 1, by omega⟩
    cases a with
    | done k => simp [Seq.takeFrom] at hl
    | crash => simp [Seq.takeFrom] at hl
    | yield v s =>
      have hw : wrap (cnt - 1) = cnt - 1 := wrap_eq_self (by omega) (by omega)
      have e1 : P.takeFrom (n + 1 + 1) (.yield v s)
          = v :: P.takeFrom (n + 1) (P.resume s true) := rfl
      rw [e1] at hl
      simp only [List.length_cons, Nat.add_right_cancel_iff] at hl
      have := ih f (P.resume s true) (acc ++ [v]) (cnt - 1) (by omega) (by omega) (by omega) hl
      have e3 : cnt - 1 - (n : Int) = cnt - ((n + 1 : Nat) : Int) := by push_cast; ring
      simp only [limit.loop, hpos, if_false, Seq.callFrom, collect, Seq.takeFrom, hw,
        List.replicate_succ, List.cons_append, Seq.feed]
      simp only [limit, Bool.not_true, Bool.false_eq_true, if_false, e3, List.append_assoc,
        List.singleton_append] at this ⊢
      exact this

theorem numbersFrom_endless (i0 : Int) :
    ∀ (n : Nat) (i : Int), ((numbersFrom i0).takeFrom n (.yield i i)).length = n := by
  intro n
  induction n with
  | zero => intro i; rfl
  | succ n ih =>
    intro i
    have := ih (wrap (i + 1))
    simpa [Seq.takeFrom, numbersFrom] using this

theorem limit_drain_call {κ σ T : Type} (P : Seq κ σ T) (hP : P.Obeys) (N : Int)
    (hN : N < 2 ^ 63) (hl : (P.take (N.toNat + 1)).length = N.toNat + 1)
    (fuel : Nat) (hf : N.toNat ≤ fuel) :
    ∃ kf, (limit P N).call collect fuel [] = .returned (kf, N - N.toNat) (P.take N.toNat) := by
  obtain ⟨kf, hk⟩ := feed_stop_done P hP N.toNat (P.enter P.vars) hl
  have := limit_drain P N N.toNat fuel (P.enter P.vars) [] N rfl hN hf hl
  rw [hk] at this
  exact ⟨kf, by simpa [Seq.call, Seq.take, limit] using this⟩

theorem limit_drain_spy {κ σ T : Type} (P : Seq κ σ T) (hP : P.Obeys) (N : Int)
    (hN : N < 2 ^ 63) (hl : (P.take (N.toNat + 1)).length = N.toNat + 1)
    (fuel : Nat) (hf : N.toNat ≤ fuel) :
    ∃ kf v, P.take (N.toNat + 1) = P.take N.toNat ++ [v] ∧
      (limit (spy P) N).call collect fuel []
        = .returned ((kf, (P.take N.toNat).map (fun x => (x, true)) ++ [(v, false)]),
            N - N.toNat) (P.take N.toNat) := by
  obtain ⟨kf, hk⟩ := feed_stop_done P hP N.toNat (P.enter P.vars) hl
  obtain ⟨v, hv⟩ := takeFrom_succ_eq_append P N.toNat (P.enter P.vars) hl
  have hl2 : ((spy P).takeFrom (N.toNat + 1) (spy.watch (P.enter P.vars) [])).length
      = N.toNat + 1 := by rw [spy_takeFrom]; exact hl
  have := limit_drain (spy P) N N.toNat fuel (spy.watch (P.enter P.vars) []) [] N rfl hN hf hl2
  have hlen : (P.takeFrom N.toNat (P.enter P.vars)).length = N.toNat := by
    have h1 := congrArg List.length hv
    have h2 : (P.takeFrom (N.toNat + 1) (P.enter P.vars)).length = N.toNat + 1 := hl
    rw [h2] at h1
    simp at h1
    omega
  have hrec := record_stop P v (P.takeFrom N.toNat (P.enter P.vars)) (P.enter P.vars)
    (by rw [hlen]; exact hv)
  rw [hlen] at hrec
  rw [spy_feed, hk, hrec, spy_takeFrom] at this
  exact ⟨kf, v, hv, by simpa [Seq.call, Seq.take, limit, spy, spy.watch] using this⟩

/-- C9 (limit upstream termination).  For every start value and every count `N`
that a Go `int` can hold, a drive of `limit(numbersFrom(start), N)` by a step
that always continues returns within `N` callback invocations, having handed
over the first `N` values; the record kept by the spied source shows that its
callback answered `true` for exactly these values and `false` for the next one,
after which the source returned.  Likewise for `limit(fibs(), N)`. -/
theorem limit_upstream_termination (start N : Int) (hN : N < 2 ^ 63) (fuel : Nat)
    (hf : N.toNat ≤ fuel) :
    (∃ i, (limit (numbersFrom start) N).call collect fuel []
      = .returned (i, N - N.toNat) ((numbersFrom start).take N.toNat)) ∧
    (∃ i v, (limit (spy (numbersFrom start)) N).call collect fuel []
      = .returned
          ((i, ((numbersFrom start).take N.toNat).map (fun x => (x, true)) ++ [(v, false)]),
            N - N.toNat)
          ((numbersFrom start).take N.toNat)) ∧
    (∃ k, (limit fibs N).call collect fuel []
      = .returned (k, N - N.toNat) (fibs.take N.toNat)) ∧
    (∃ k v, (limit (spy fibs) N).call collect fuel []
      = .returned
          ((k, (fibs.take N.toNat).map (fun x => (x, true)) ++ [(v, false)]), N - N.toNat)
          (fibs.take N.toNat)) := by
  have hn : ((numbersFrom start).take (N.toNat + 1)).length = N.toNat + 1 :=
    numbersFrom_endless start (N.toNat + 1) start
  have hfib : (fibs.take (N.toNat + 1)).length = N.toNat + 1 := by
    rw [take_fibs]; simp
  refine ⟨limit_drain_call _ (obeys_numbersFrom start) N hN hn fuel hf, ?_,
    limit_drain_call _ obeys_fibs N hN hfib fuel hf, ?_⟩
  · obtain ⟨kf, v, -, h⟩ := limit_drain_spy _ (obeys_numbersFrom start) N hN hn fuel hf
    exact ⟨kf, v, h⟩
  · obtain ⟨kf, v, -, h⟩ := limit_drain_spy _ obeys_fibs N hN hfib fuel hf
    exact ⟨kf, v, h⟩

/-- Witness for C9: counting from 5, limited to 3. -/
theorem limit_upstream_termination_witness :
    ∃ i, (limit (numbersFrom 5) 3).call collect 3 [] = .returned (i, 3 - (3 : Nat)) [5, 6, 7] :=
  (limit_upstream_termination 5 3 (by decide) 3 (by decide)).1

/-- C7 (Fibonacci sequence).  The values of a fresh `fibs()` are the numbers
`f(0) = f(1) = 1`, `f(n+2) = f(n+1) + f(n)` over unbounded integers: its first
`n` values are `f(0) .. f(n-1)`, so its `n`-th value (0-based) is `f(n)`; and
`reduceToSlice(limit(fibs(), 10))` returns `[1, 1, 2, 3, 5, 8, 13, 21, 34, 55]`. -/
theorem fibs_values :
    (∀ n, fibs.take n = (List.range n).map fibSpec) ∧
    (∀ n, (fibs.take (n + 1))[n]? = some (fibSpec n)) ∧
    (fibSpec 0 = 1 ∧ fibSpec 1 = 1 ∧ ∀ n, fibSpec (n + 2) = fibSpec (n + 1) + fibSpec n) ∧
    (∀ fuel, 10 ≤ fuel →
      reduceToSlice (limit fibs 10) fuel
        = .returned ((55, 89), 0) [1, 1, 2, 3, 5, 8, 13, 21, 34, 55]) := by
  refine ⟨take_fibs, ?_, ⟨rfl, rfl, fun _ => rfl⟩, ?_⟩
  · intro n
    rw [take_fibs]
    simp
  · intro fuel hf
    have h10 : reduce (limit fibs 10) ([] : List Int)
        (fun agg val => (agg ++ [val], (none : Option Unit))) 10
        = .returned ((55, 89), 0) ([1, 1, 2, 3, 5, 8, 13, 21, 34, 55], none) := by decide
    have hm := rangeFrom_mono (limit fibs 10)
      (reduce.body (fun (agg : List Int) val => (agg ++ [val], (none : Option Unit)))) 10
      ((limit fibs 10).enter (limit fibs 10).vars) ([], none)
      (by
        have : (reduce (limit fibs 10) ([] : List Int)
            (fun agg val => (agg ++ [val], (none : Option Unit))) 10).seen ≠ none := by
          rw [h10]; simp [Run.seen]
        exact this) fuel hf
    have hr : reduce (limit fibs 10) ([] : List Int)
        (fun agg val => (agg ++ [val], (none : Option Unit))) fuel
        = .returned ((55, 89), 0) ([1, 1, 2, 3, 5, 8, 13, 21, 34, 55], none) := by
      rw [← h10]; exact hm
    simp [reduceToSlice, hr]

/-- Witness for C7: the slice of the first ten values, with fuel to spare. -/
theorem fibs_values_witness :
    reduceToSlice (limit fibs 10) 12
      = .returned ((55, 89), 0) [1, 1, 2, 3, 5, 8, 13, 21, 34, 55] :=
  fibs_values.2.2.2 12 (by decide)

theorem neverCallsAfterStop_from {κ σ T : Type} (p : Seq κ σ T)
    (h : ∀ s v s1, p.resume s false ≠ .yield v s1) (S : Type) (step : T → S → Bool × S) :
    ∀ (fuel : Nat) (a : Susp κ σ T) (s : S) (log : List Bool), false ∉ log →
      false ∉ ((p.callFrom (logged step) fuel a (s, log)).state.2).dropLast := by
  intro fuel
  induction fuel with
  | zero =>
    intro a s log hl hm
    have : (p.callFrom (logged step) 0 a (s, log)).state = (s, log) := by cases a <;> rfl
    rw [this] at hm
    exact hl (List.mem_of_mem_dropLast hm)
  | succ f ih =>
    intro a s log hl hm
    cases a with
    | done k => exact hl (List.mem_of_mem_dropLast hm)
    | crash => exact hl (List.mem_of_mem_dropLast hm)
    | yield v st =>
      simp only [Seq.callFrom, logged] at hm
      cases hb : (step v s).1 with
      | true =>
        rw [hb] at hm
        exact ih _ _ _ (by simpa using hl) hm
      | false =>
        rw [hb] at hm
        cases hr : p.resume st false with
        | yield w s1 => exact h st w s1 hr
        | done k =>
          rw [hr] at hm
          cases f <;> simp [Seq.callFrom, Run.state] at hm <;> exact hl hm
        | crash =>
          rw [hr] at hm
          cases f <;> simp [Seq.callFrom, Run.state] at hm <;> exact hl hm

theorem neverCallsAfterStop_of_obeys {κ σ T : Type} (p : Seq κ σ T) (h : p.Obeys) :
    p.NeverCallsAfterStop := by
  intro S step fuel s
  apply neverCallsAfterStop_from p _ S step fuel (p.enter p.vars) s []
  · simp
  · intro st v s1 hr
    obtain ⟨k, hk⟩ := h st
    rw [hk] at hr
    cases hr

/-- C8 (no call after stop).  Each of `numbersFrom`, `intsFrom`, `intsFromTo`
and `fibs`, and `limit`, `limit2` and `zip` over sources that obey the rule,
obeys it: told `false`, the body returns without calling the step callback
again; and so in every drive, with whatever step callback, an answer `false`
is the last answer the callback is asked for. -/
theorem no_call_after_stop :
    (∀ i, (numbersFrom i).Obeys ∧ (numbersFrom i).NeverCallsAfterStop) ∧
    (∀ i, (intsFrom i).Obeys ∧ (intsFrom i).NeverCallsAfterStop) ∧
    (∀ i j, (intsFromTo i j).Obeys ∧ (intsFromTo i j).NeverCallsAfterStop) ∧
    (fibs.Obeys ∧ fibs.NeverCallsAfterStop) ∧
    (∀ (κ σ T : Type) (src : Seq κ σ T) (cnt : Int), src.Obeys →
      (limit src cnt).Obeys ∧ (limit src cnt).NeverCallsAfterStop) ∧
    (∀ (κ σ T U : Type) (src : Seq κ σ (T × U)) (cnt : Int), src.Obeys →
      (limit2 src cnt).Obeys ∧ (limit2 src cnt).NeverCallsAfterStop) ∧
    (∀ (κa σa T κb σb U : Type) (a : Seq κa σa T) (b : Seq κb σb U), a.Obeys → b.Obeys →
      (zip a b).Obeys ∧ (zip a b).NeverCallsAfterStop) :=
  ⟨fun i => ⟨obeys_numbersFrom i, neverCallsAfterStop_of_obeys _ (obeys_numbersFrom i)⟩,
   fun i => ⟨obeys_intsFrom i, neverCallsAfterStop_of_obeys _ (obeys_intsFrom i)⟩,
   fun i j => ⟨obeys_intsFromTo i j, neverCallsAfterStop_of_obeys _ (obeys_intsFromTo i j)⟩,
   ⟨obeys_fibs, neverCallsAfterStop_of_obeys _ obeys_fibs⟩,
   fun _ _ _ src cnt h =>
    ⟨obeys_limit src cnt h, neverCallsAfterStop_of_obeys _ (obeys_limit src cnt h)⟩,
   fun _ _ _ _ src cnt h =>
    ⟨obeys_limit2 src cnt h, neverCallsAfterStop_of_obeys _ (obeys_limit2 src cnt h)⟩,
   fun _ _ _ _ _ _ a b ha hb =>
    ⟨obeys_zip a b ha hb, neverCallsAfterStop_of_obeys _ (obeys_zip a b ha hb)⟩⟩

/-- Witness for C8: `zip` of two limited sources. -/
theorem no_call_after_stop_witness :
    (zip (limit (numbersFrom 0) 3) (limit fibs 5)).Obeys ∧
      (zip (limit (numbersFrom 0) 3) (limit fibs 5)).NeverCallsAfterStop :=
  no_call_after_stop.2.2.2.2.2.2 _ _ _ _ _ _ (limit (numbersFrom 0) 3) (limit fibs 5)
    ((no_call_after_stop.2.2.2.2.1 _ _ _ (numbersFrom 0) 3 (no_call_after_stop.1 0).1).1)
    ((no_call_after_stop.2.2.2.2.1 _ _ _ fibs 5 no_call_after_stop.2.2.2.1.1).1)

theorem limit_stop {κ σ T S : Type} (P : Seq κ σ T) (c0 : Int) (step : T → S → Bool × S)
    (v : T) :
    ∀ (pre : List T) (a : Susp κ σ T) (s : S) (cnt : Int),
      P.takeFrom (pre.length + 1) a = pre ++ [v] → AllContinue step s pre →
      (step v (pre.foldl (fun s x => (step x s).2) s)).1 = false →
      (pre.length : Int) + 1 ≤ cnt → cnt < 2 ^ 63 →
      ∀ fuel, pre.length + 1 ≤ fuel →
        (limit P c0).callFrom step fuel (limit.loop P a cnt) s
          = match P.feed (List.replicate pre.length true ++ [false]) a with
            | .done k =>
                .returned (k, cnt - (pre.length + 1))
                  (step v (pre.foldl (fun s x => (step x s).2) s)).2
            | _ => .panicked (step v (pre.foldl (fun s x => (step x s).2) s)).2 := by
  intro pre
  induction pre with
  | nil =>
    intro a s cnt ht _ hs hc hlt fuel hfuel
    obtain ⟨f, rfl⟩ : ∃ f, fuel = f + 1 := ⟨fuel - 1, by simp at hfuel; omega⟩
    obtain ⟨s1, rfl, -⟩ := takeFrom_succ_eq_cons P (by simpa using ht)
    have hpos : ¬ cnt ≤ 0 := by simp at hc; omega
    have hw : wrap (cnt - 1) = cnt - 1 := wrap_eq_self (by omega) (by omega)
    simp only [List.foldl_nil] at hs
    simp only [limit.loop, hpos, if_false, Seq.callFrom, hs, hw, List.length_nil,
      List.replicate_zero, List.nil_append, Seq.feed, List.foldl_nil, Nat.cast_zero, zero_add]
    simp only [limit, Bool.not_false, if_true, limit.leave]
    cases P.resume s1 false <;> cases f <;> simp [Seq.callFrom]
  | cons x pre ih =>
    intro a s cnt ht hall hs hc hlt fuel hfuel
    obtain ⟨f, rfl⟩ : ∃ f, fuel = f + 1 := ⟨fuel - 1, by simp at hfuel; omega⟩
    obtain ⟨s1, rfl, ht2⟩ := takeFrom_succ_eq_cons P (by simpa using ht)
    obtain ⟨h1, h2⟩ := hall
    have hpos : ¬ cnt ≤ 0 := by simp at hc; omega
    have hw : wrap (cnt - 1) = cnt - 1 := wrap_eq_self (by omega) (by omega)
    simp only [List.foldl_cons] at hs
    have := ih (P.resume s1 true) (step x s).2 (cnt - 1) ht2 h2 hs
      (by simp at hc ⊢; omega) (by omega) f (by simp at hfuel; omega)
    have e3 : cnt - 1 - ((pre.length : Int) + 1) = cnt - (((x :: pre).length : Int) + 1) := by
      simp only [List.length_cons]; push_cast; ring
    simp only [limit.loop, hpos, if_false, Seq.callFrom, h1, hw, List.length_cons,
      List.replicate_succ, List.cons_append, Seq.feed, List.foldl_cons]
    simp only [limit, Bool.not_true, Bool.false_eq_true, if_false, e3, List.length_cons] at this ⊢
    exact this

theorem allContinue_logged {T S : Type} (step : T → S → Bool × S) :
    ∀ (pre : List T) (s : S) (l : List Bool), AllContinue step s pre →
      AllContinue (logged step) (s, l) pre ∧
      pre.foldl (fun st x => (logged step x st).2) (s, l)
        = (pre.foldl (fun s x => (step x s).2) s, l ++ List.replicate pre.length true) := by
  intro pre
  induction pre with
  | nil => intro s l _; simp [AllContinue]
  | cons x pre ih =>
    intro s l h
    obtain ⟨h1, h2⟩ := h
    obtain ⟨i1, i2⟩ := ih (step x s).2 (l ++ [(step x s).1]) h2
    refine ⟨⟨by simpa [logged] using h1, by simpa [logged] using i1⟩, ?_⟩
    simp only [List.foldl_cons, logged, List.length_cons, List.replicate_succ] at i2 ⊢
    rw [i2, h1]
    simp

/-- C10 (downstream stop).  Let `P` obey the stop rule, let the downstream step
answer `true` on the first k-1 values `pre` of `P` and `false` on the k-th value
`v`, with `k <= N`.  Then the drive of `limit(P, N)` returns; the downstream
step has been called exactly k times (its k answers are `true`, ..., `true`,
`false`); and `P` has had exactly k calls of its callback answered, `true` for
each value of `pre` and `false` for `v`, the very call on which the downstream
step said `false`, after which `P` returned. -/
theorem limit_downstream_stop {κ σ T S : Type} (P : Seq κ σ T) (hP : P.Obeys) (N : Int)
    (hN : N < 2 ^ 63) (step : T → S → Bool × S) (s0 : S) (pre : List T) (v : T)
    (ht : P.take (pre.length + 1) = pre ++ [v]) (hc : AllContinue step s0 pre)
    (hstop : (step v (pre.foldl (fun s x => (step x s).2) s0)).1 = false)
    (hk : (pre.length : Int) + 1 ≤ N) :
    ∀ fuel, pre.length + 1 ≤ fuel →
      (∃ kf, (limit P N).call step fuel s0
        = .returned (kf, N - (pre.length + 1))
            (step v (pre.foldl (fun s x => (step x s).2) s0)).2) ∧
      (∃ kf, (limit (spy P) N).call (logged step) fuel (s0, [])
        = .returned ((kf, pre.map (fun x => (x, true)) ++ [(v, false)]), N - (pre.length + 1))
            ((step v (pre.foldl (fun s x => (step x s).2) s0)).2,
              List.replicate pre.length true ++ [false])) := by
  intro fuel hfuel
  have hlen : (P.takeFrom (pre.length + 1) (P.enter P.vars)).length = pre.length + 1 := by
    have := congrArg List.length ht
    simpa [Seq.take] using this
  obtain ⟨kf, hkf⟩ := feed_stop_done P hP pre.length (P.enter P.vars) hlen
  refine ⟨⟨kf, ?_⟩, ⟨kf, ?_⟩⟩
  · have := limit_stop P N step v pre (P.enter P.vars) s0 N ht hc hstop hk hN fuel hfuel
    rw [hkf] at this
    simpa [Seq.call, limit] using this
  · obtain ⟨a1, a2⟩ := allContinue_logged step pre s0 [] hc
    have hs2 : (logged step v (pre.foldl (fun st x => (logged step x st).2) (s0, []))).1
        = false := by
      rw [a2]; simpa [logged] using hstop
    have hts : (spy P).takeFrom (pre.length + 1) (spy.watch (P.enter P.vars) [])
        = pre ++ [v] := by rw [spy_takeFrom]; exact ht
    have := limit_stop (spy P) N (logged step) v pre (spy.watch (P.enter P.vars) []) (s0, []) N
      hts a1 hs2 hk hN fuel hfuel
    have hrec := record_stop P v pre (P.enter P.vars) ht
    rw [spy_feed, hkf, hrec, a2] at this
    simpa [Seq.call, limit, spy, spy.watch, logged, hstop] using this

/-- Witness for C10: counting from 1 under `limit(_, 5)`, the step stopping at
the first value above 2. -/
theorem limit_downstream_stop_witness :
    ∃ kf, (limit (numbersFrom 1) 5).call
        (fun (v : Int) (seen : List Int) => (decide (v ≤ 2), seen ++ [v])) 3 []
      = .returned (kf, 5 - ((([1, 2] : List Int).length : Int) + 1)) [1, 2, 3] :=
  ((limit_downstream_stop (numbersFrom 1) (obeys_numbersFrom 1) 5 (by decide)
    (fun (v : Int) (seen : List Int) => (decide (v ≤ 2), seen ++ [v])) [] [1, 2] 3
    (by decide) ⟨by decide, by decide, trivial⟩ (by decide) (by decide)) 3 (by decide)).1

/-! ### The sum of `TestNumbers` -/

theorem wrap_add_left (a b : Int) : wrap (wrap a + b) = wrap (a + b) := by
  unfold wrap
  omega

theorem triangle_succ (n : Int) : (n + 1) * (n + 1 + 1) / 2 = n * (n + 1) / 2 + (n + 1) := by
  have h : (n + 1) * (n + 1 + 1) = n * (n + 1) + 2 * (n + 1) := by ring
  rw [h, Int.add_mul_ediv_left _ _ (by norm_num : (2 : Int) ≠ 0)]

theorem sum_fold_of (w : Int → Int) (hw : ∀ a b, w (w a + b) = w (a + b)) (h0 : w 0 = 0)
    (n : Nat) :
    ((List.range n).map (fun (j : Nat) => (1 : Int) + (j : Int))).foldl
        (fun u v => w (u + v)) 0
      = w ((n : Int) * ((n : Int) + 1) / 2) := by
  induction n with
  | zero => simp [h0]
  | succ n ih =>
    rw [List.range_succ, List.map_append, List.foldl_append, ih]
    simp only [List.map_cons, List.map_nil, List.foldl_cons, List.foldl_nil]
    rw [hw]
    push_cast
    rw [triangle_succ]
    congr 1
    ring

theorem wrap_zero : wrap 0 = 0 := by decide

theorem addInts_fst : (fun u v => (addInts u v).1) = (fun u v => wrap (u + v)) := rfl

theorem sum_fold (n : Nat) :
    ((List.range n).map (fun (j : Nat) => (1 : Int) + (j : Int))).foldl
        (fun u v => (addInts u v).1) 0
      = wrap ((n : Int) * ((n : Int) + 1) / 2) := by
  rw [addInts_fst]
  exact sum_fold_of wrap wrap_add_left wrap_zero n

theorem neverFails_addInts : ∀ (xs : List Int) (u : Int), NeverFails addInts u xs := by
  intro xs
  induction xs with
  | nil => intro u; trivial
  | cons x xs ih => intro u; exact ⟨rfl, ih _⟩

theorem reduce_sum_wrapped (N : Int) (h0 : 0 ≤ N) (hN : N < 2 ^ 63) (fuel : Nat)
    (hf : N.toNat ≤ fuel) :
    ∃ kf, reduce (limit (numbersFrom 1) N) 0 addInts fuel
      = .returned kf (wrap (N * (N + 1) / 2), none) := by
  have hn : ((numbersFrom 1).take (N.toNat + 1)).length = N.toNat + 1 :=
    numbersFrom_endless 1 (N.toNat + 1) 1
  obtain ⟨kf, hk⟩ := limit_drain_call _ (obeys_numbersFrom 1) N hN hn N.toNat (le_refl _)
  obtain ⟨rest, hx, he⟩ := emits_of_callFrom _ _ _ _ _ _ hk
  simp only [List.nil_append] at hx
  rw [← hx] at he
  have hlen : ((numbersFrom 1).take N.toNat).length = N.toNat :=
    numbersFrom_endless 1 N.toNat 1
  have := rangeFrom_reduce_of_emits _ addInts he 0 (neverFails_addInts _ _) fuel
    (by rw [hlen]; exact hf)
  rw [take_numbersFrom 1 N.toNat (by decide) (by omega), sum_fold] at this
  have hc : ((N.toNat : Nat) : Int) = N := Int.toNat_of_nonneg h0
  rw [hc] at this
  exact ⟨_, this⟩

theorem triangle_fits (N : Int) (h0 : 0 ≤ N) (h : N ≤ 4294967295) :
    -2 ^ 63 ≤ N * (N + 1) / 2 ∧ N * (N + 1) / 2 < 2 ^ 63 := by
  have h1 : 0 ≤ N * (N + 1) := by positivity
  have h2 : N * (N + 1) ≤ 4294967295 * 4294967296 := by nlinarith
  constructor
  · have : 0 ≤ N * (N + 1) / 2 := Int.ediv_nonneg h1 (by norm_num)
    omega
  · omega

/-- C6, as the code has it.  For every count `N` with `0 <= N < 2^63`,
`reduce(limit(numbersFrom(1), N), 0, addition)` returns, with a nil error, the
number `N*(N+1)/2` reduced to the range of the 64-bit `int`; that is
`N*(N+1)/2` itself whenever this number is below `2^63`, as it is for every
`N <= 4294967295`; `N = 100` gives 5050. -/
theorem reduce_sum (N : Int) (h0 : 0 ≤ N) (hN : N < 2 ^ 63) (fuel : Nat)
    (hf : N.toNat ≤ fuel) :
    (∃ kf, reduce (limit (numbersFrom 1) N) 0 addInts fuel
      = .returned kf (wrap (N * (N + 1) / 2), none)) ∧
    (N * (N + 1) / 2 < 2 ^ 63 →
      ∃ kf, reduce (limit (numbersFrom 1) N) 0 addInts fuel
        = .returned kf (N * (N + 1) / 2, none)) ∧
    (N ≤ 4294967295 →
      ∃ kf, reduce (limit (numbersFrom 1) N) 0 addInts fuel
        = .returned kf (N * (N + 1) / 2, none)) ∧
    (N = 100 →
      ∃ kf, reduce (limit (numbersFrom 1) N) 0 addInts fuel = .returned kf (5050, none)) := by
  obtain ⟨kf, hk⟩ := reduce_sum_wrapped N h0 hN fuel hf
  have hnn : 0 ≤ N * (N + 1) / 2 := Int.ediv_nonneg (by positivity) (by norm_num)
  refine ⟨⟨kf, hk⟩, ?_, ?_, ?_⟩
  · intro hfit
    rw [wrap_eq_self (by omega) hfit] at hk
    exact ⟨kf, hk⟩
  · intro hsmall
    obtain ⟨_, hfit⟩ := triangle_fits N h0 hsmall
    rw [wrap_eq_self (by omega) hfit] at hk
    exact ⟨kf, hk⟩
  · intro h100
    subst h100
    exact ⟨kf, hk⟩

/-- Witness for C6: `N = 100`, the instance of `TestNumbers`. -/
theorem reduce_sum_witness :
    ∃ kf, reduce (limit (numbersFrom 1) 100) 0 addInts 100 = .returned kf (5050, none) :=
  (reduce_sum 100 (by decide) (by decide) 100 (by decide)).2.2.2 rfl

/-- Counterexample to C6 as stated: for `N = 2^32` the sum `N*(N+1)/2` is
`2^63 + 2^31`, which a 64-bit `int` cannot hold; `reduce` returns
`-2^63 + 2^31`. -/
theorem reduce_sum_counterexample :
    (reduce (limit (numbersFrom 1) 4294967296) 0 addInts 4294967296).state
        = (-9223372034707292160, none) ∧
      (-9223372034707292160 : Int) ≠ 4294967296 * (4294967296 + 1) / 2 := by
  refine ⟨?_, by decide⟩
  obtain ⟨kf, hk⟩ := reduce_sum_wrapped 4294967296 (by decide) (by decide) 4294967296
    (by decide)
  rw [hk]
  simp only [Run.state]
  decide

/-! ### Later drives -/

theorem callFrom_again {κ σ T S : Type} (p : Seq κ σ T) (k : κ) (step : T → S → Bool × S) :
    ∀ (fuel : Nat) (a : Susp κ σ T) (s : S),
      (p.again k).callFrom step fuel a s = p.callFrom step fuel a s := by
  intro fuel
  induction fuel with
  | zero => intro a s; cases a <;> rfl
  | succ f ih =>
    intro a s
    cases a with
    | done k1 => rfl
    | crash => rfl
    | yield v st =>
      simp only [Seq.callFrom]
      exact ih _ _

theorem call_again {κ σ T S : Type} (p : Seq κ σ T) (k : κ) (step : T → S → Bool × S)
    (fuel : Nat) (s : S) :
    (p.again k).call step fuel s = p.callFrom step fuel (p.enter k) s :=
  callFrom_again p k step fuel (p.enter k) s

/-! ### `zip`: release of the cursors -/

theorem pullStop_closed {κ σ T : Type} (p : Seq κ σ T) (c c1 : Cursor κ σ)
    (h : pullStop p c = some c1) : ∃ k, c1 = .closed k := by
  cases c with
  | fresh k => exact ⟨k, by simpa [pullStop] using h.symm⟩
  | closed k => exact ⟨k, by simpa [pullStop] using h.symm⟩
  | suspended s =>
    simp only [pullStop] at h
    cases hr : p.resume s false with
    | done k => rw [hr] at h; exact ⟨k, by simpa using h.symm⟩
    | yield v s1 => rw [hr] at h; simp at h
    | crash => rw [hr] at h; simp at h

theorem zip_leave_done {κa σa T κb σb U : Type} (a : Seq κa σa T) (b : Seq κb σb U)
    (ca : Cursor κa σa) (cb : Cursor κb σb) (k : Cursor κa σa × Cursor κb σb)
    (h : zip.leave a b ca cb = .done k) : ∃ ka kb, k = (.closed ka, .closed kb) := by
  unfold zip.leave at h
  cases hb : pullStop b cb with
  | none => rw [hb] at h; simp at h
  | some cb1 =>
    cases ha : pullStop a ca with
    | none => rw [hb, ha] at h; simp at h
    | some ca1 =>
      rw [hb, ha] at h
      obtain ⟨ka, rfl⟩ := pullStop_closed a ca ca1 ha
      obtain ⟨kb, rfl⟩ := pullStop_closed b cb cb1 hb
      simp only [Susp.done.injEq] at h
      exact ⟨ka, kb, h.symm⟩

theorem zip_leave_ne_yield {κa σa T κb σb U : Type} (a : Seq κa σa T) (b : Seq κb σb U)
    (ca : Cursor κa σa) (cb : Cursor κb σb) (v : T × U)
    (st : Cursor κa σa × Cursor κb σb) : zip.leave a b ca cb ≠ .yield v st := by
  unfold zip.leave
  cases pullStop b cb <;> cases pullStop a ca <;> simp

theorem zip_advance_cases {κa σa T κb σb U : Type} (a : Seq κa σa T) (b : Seq κb σb U)
    (ca : Cursor κa σa) (cb : Cursor κb σb) :
    zip.advance a b ca cb = .crash ∨
    (∃ ca1 cb1, zip.advance a b ca cb = zip.leave a b ca1 cb1) ∨
    (∃ x y s t, zip.advance a b ca cb = .yield (x, y) (.suspended s, .suspended t) ∧
      Cursor.ahead a ca = .yield x s ∧ Cursor.ahead b cb = .yield y t) := by
  unfold zip.advance
  rw [pullNext_eq a ca, pullNext_eq b cb]
  cases ha : Cursor.ahead a ca with
  | crash => left; rfl
  | done k =>
    cases hb : Cursor.ahead b cb with
    | crash => left; rfl
    | done k2 => right; left; exact ⟨_, _, rfl⟩
    | yield w t => right; left; exact ⟨_, _, rfl⟩
  | yield v s =>
    cases hb : Cursor.ahead b cb with
    | crash => left; rfl
    | done k2 => right; left; exact ⟨_, _, rfl⟩
    | yield w t => right; right; exact ⟨v, w, s, t, rfl, rfl, rfl⟩

theorem zip_returned_closed {κa σa T κb σb U S : Type} (a : Seq κa σa T) (b : Seq κb σb U)
    (step : T × U → S → Bool × S) :
    ∀ (fuel : Nat) (ca : Cursor κa σa) (cb : Cursor κb σb) (s s1 : S)
      (k : Cursor κa σa × Cursor κb σb),
      (zip a b).callFrom step fuel (zip.advance a b ca cb) s = .returned k s1 →
      ∃ ka kb, k = (.closed ka, .closed kb) := by
  intro fuel
  induction fuel with
  | zero =>
    intro ca cb s s1 k h
    rcases zip_advance_cases a b ca cb with hc | ⟨ca1, cb1, hc⟩ | ⟨x, y, s2, t2, hc, -, -⟩
    · rw [hc] at h; simp [Seq.callFrom] at h
    · rw [hc] at h
      cases hl : zip.leave a b ca1 cb1 with
      | done k1 =>
        rw [hl] at h
        simp only [Seq.callFrom, Run.returned.injEq] at h
        obtain ⟨ka, kb, hk⟩ := zip_leave_done a b ca1 cb1 k1 hl
        exact ⟨ka, kb, by rw [← h.1, hk]⟩
      | yield v st => exact absurd hl (zip_leave_ne_yield a b ca1 cb1 v st)
      | crash => rw [hl] at h; simp [Seq.callFrom] at h
    · rw [hc] at h; simp [Seq.callFrom] at h
  | succ f ih =>
    intro ca cb s s1 k h
    rcases zip_advance_cases a b ca cb with hc | ⟨ca1, cb1, hc⟩ | ⟨x, y, s2, t2, hc, -, -⟩
    · rw [hc] at h; simp [Seq.callFrom] at h
    · rw [hc] at h
      cases hl : zip.leave a b ca1 cb1 with
      | done k1 =>
        rw [hl] at h
        simp only [Seq.callFrom, Run.returned.injEq] at h
        obtain ⟨ka, kb, hk⟩ := zip_leave_done a b ca1 cb1 k1 hl
        exact ⟨ka, kb, by rw [← h.1, hk]⟩
      | yield v st => exact absurd hl (zip_leave_ne_yield a b ca1 cb1 v st)
      | crash => rw [hl] at h; simp [Seq.callFrom] at h
    · rw [hc] at h
      simp only [Seq.callFrom] at h
      cases hb : (step (x, y) s).1 with
      | true =>
        rw [hb] at h
        exact ih (.suspended s2) (.suspended t2) _ _ _ (by simpa [zip] using h)
      | false =>
        rw [hb] at h
        simp only [zip, Bool.not_false, if_true] at h
        cases hl : zip.leave a b (.suspended s2) (.suspended t2) with
        | done k1 =>
          rw [hl] at h
          have hk1 : k1 = k := by
            cases f <;> simp [Seq.callFrom] at h <;> exact h.1
          obtain ⟨ka, kb, hk⟩ := zip_leave_done a b _ _ k1 hl
          exact ⟨ka, kb, by rw [← hk1, hk]⟩
        | yield v st => exact absurd hl (zip_leave_ne_yield a b _ _ v st)
        | crash =>
          rw [hl] at h
          cases f <;> simp [Seq.callFrom] at h

/-- C11 (zip resource release).  Whenever a drive of a `zip(a, b)` producer
returns, be it the first drive or a later one, with whatever step callback,
both cursors are over: `next()` on either of them reports that there is no
value and leaves it over, and every later drive of the same producer returns
at once without handing a pair to its step. -/
theorem zip_release {κa σa T κb σb U S : Type} (a : Seq κa σa T) (b : Seq κb σb U)
    (k0 : Cursor κa σa × Cursor κb σb) (step : T × U → S → Bool × S) (fuel : Nat) (s s1 : S)
    (k : Cursor κa σa × Cursor κb σb)
    (h : ((zip a b).again k0).call step fuel s = .returned k s1) :
    (∃ ka kb, k = (.closed ka, .closed kb)) ∧
    pullNext a k.1 = some (none, k.1) ∧
    pullNext b k.2 = some (none, k.2) ∧
    (∀ (S1 : Type) (step1 : T × U → S1 → Bool × S1) (fuel1 : Nat) (s2 : S1),
      ((zip a b).again k).call step1 fuel1 s2 = .returned k s2) := by
  obtain ⟨ka, kb, rfl⟩ := zip_returned_closed a b step fuel k0.1 k0.2 s s1 k
    (by rw [call_again] at h; exact h)
  refine ⟨⟨ka, kb, rfl⟩, rfl, rfl, ?_⟩
  intro S1 step1 fuel1 s2
  rw [call_again]
  cases fuel1 <;> rfl

/-- Witness for C11: `zip` of the ranges 0, 1 and 5 .. 8, driven to the end. -/
theorem zip_release_witness :
    pullNext (intsFromTo 5 9) (Cursor.closed 8 : Cursor Int Int) = some (none, .closed 8) :=
  (zip_release (intsFromTo 0 2) (intsFromTo 5 9) (.fresh 0, .fresh 5) collect 3 []
    [(0, 5), (1, 6)] (.closed 2, .closed 8) (by decide)).2.2.1

/-! ### `zip`: what each side is asked for -/

theorem zip_leave_call {κa σa T κb σb U S : Type} (a : Seq κa σa T) (b : Seq κb σb U)
    (step : T × U → S → Bool × S) (ca : Cursor κa σa) (cb : Cursor κb σb) (fuel : Nat) (s : S) :
    (zip a b).callFrom step fuel (zip.leave a b ca cb) s
      = zip.outcome
          (match ca with
            | .fresh k => .done k
            | .closed k => .done k
            | .suspended st => a.resume st false)
          (match cb with
            | .fresh k => .done k
            | .closed k => .done k
            | .suspended st => b.resume st false) s := by
  unfold zip.leave
  cases ca with
  | fresh ka =>
    cases cb with
    | fresh kb => cases fuel <;> rfl
    | closed kb => cases fuel <;> rfl
    | suspended t =>
      simp only [pullStop]
      cases b.resume t false <;> cases fuel <;> rfl
  | closed ka =>
    cases cb with
    | fresh kb => cases fuel <;> rfl
    | closed kb => cases fuel <;> rfl
    | suspended t =>
      simp only [pullStop]
      cases b.resume t false <;> cases fuel <;> rfl
  | suspended s1 =>
    cases cb with
    | fresh kb =>
      simp only [pullStop]
      cases a.resume s1 false <;> cases fuel <;> rfl
    | closed kb =>
      simp only [pullStop]
      cases a.resume s1 false <;> cases fuel <;> rfl
    | suspended t =>
      simp only [pullStop]
      cases b.resume t false <;> cases a.resume s1 false <;> cases fuel <;> rfl

theorem zip_drain {κa σa T κb σb U : Type} (a : Seq κa σa T) (b : Seq κb σb U) :
    ∀ (n fuel : Nat) (ca : Cursor κa σa) (cb : Cursor κb σb) (acc : List (T × U)),
      n ≤ fuel →
      ((a.takeFrom n (Cursor.ahead a ca)).length < n ∨
        (b.takeFrom n (Cursor.ahead b cb)).length < n) →
      (zip a b).callFrom collect fuel (zip.advance a b ca cb) acc
        = zip.outcome
            (a.feed (List.replicate (List.zip (a.takeFrom n (Cursor.ahead a ca))
                (b.takeFrom n (Cursor.ahead b cb))).length true ++ [false]) (Cursor.ahead a ca))
            (b.feed (List.replicate (List.zip (a.takeFrom n (Cursor.ahead a ca))
                (b.takeFrom n (Cursor.ahead b cb))).length true ++ [false]) (Cursor.ahead b cb))
            (acc ++ List.zip (a.takeFrom n (Cursor.ahead a ca))
              (b.takeFrom n (Cursor.ahead b cb))) := by
  intro n
  induction n with
  | zero => intro fuel ca cb acc _ h; simp at h
  | succ n ih =>
    intro fuel ca cb acc hf h
    obtain ⟨f, rfl⟩ : ∃ f, fuel = f + 1 := ⟨fuel - 1, by omega⟩
    unfold zip.advance
    rw [pullNext_eq a ca, pullNext_eq b cb]
    cases ha : Cursor.ahead a ca with
    | crash => simp [Seq.callFrom, Seq.takeFrom, Seq.feed, zip.outcome]
    | done k =>
      cases hb : Cursor.ahead b cb with
      | crash => simp [Seq.callFrom, Seq.takeFrom, Seq.feed, zip.outcome]
      | done k2 =>
        simp only [zip_leave_call, Seq.takeFrom, List.zip_nil_left, List.length_nil,
          List.replicate_zero, List.nil_append, Seq.feed, List.append_nil]
      | yield w t =>
        simp only [zip_leave_call, Seq.takeFrom, List.zip_nil_left, List.length_nil,
          List.replicate_zero, List.nil_append, Seq.feed, List.append_nil]
    | yield v s =>
      cases hb : Cursor.ahead b cb with
      | crash =>
        simp only [Seq.callFrom, Seq.takeFrom, List.zip_nil_right, List.length_nil,
          List.replicate_zero, List.nil_append, Seq.feed, List.append_nil, zip.outcome]
        cases a.resume s false <;> rfl
      | done k2 =>
        simp only [zip_leave_call, Seq.takeFrom, List.zip_nil_right, List.length_nil,
          List.replicate_zero, List.nil_append, Seq.feed, List.append_nil]
      | yield w t =>
        rw [ha, hb] at h
        simp only [Seq.takeFrom, List.length_cons, Nat.add_lt_add_iff_right] at h
        have := ih f (.suspended s) (.suspended t) (acc ++ [(v, w)]) (by omega)
          (by simpa [Cursor.ahead] using h)
        simp only [Seq.callFrom, collect, Seq.takeFrom, List.zip_cons_cons, List.length_cons,
          List.replicate_succ, List.cons_append, Seq.feed]
        simpa [zip, Cursor.ahead] using this

theorem feed_of_emits {κ σ T : Type} (p : Seq κ σ T) (hP : p.Obeys) {a : Susp κ σ T}
    {xs : List T} {k : κ} (h : p.Emits a xs k) :
    ∀ m, ∃ kf, p.feed (List.replicate m true ++ [false]) a = .done kf := by
  induction h with
  | done k => intro m; exact ⟨k, by cases m <;> rfl⟩
  | yield v s xs k _ ih =>
    intro m
    cases m with
    | zero => simpa [Seq.feed] using hP s
    | succ m => simpa [Seq.feed, List.replicate_succ] using ih m

theorem record_of_emits {κ σ T : Type} (p : Seq κ σ T) {a : Susp κ σ T}
    {xs : List T} {k : κ} (h : p.Emits a xs k) :
    ∀ m, p.record (List.replicate m true ++ [false]) a
      = (xs.take m).map (fun x => (x, true)) ++ ((xs.drop m).take 1).map (fun x => (x, false)) := by
  induction h with
  | done k => intro m; cases m <;> rfl
  | yield v s xs k _ ih =>
    intro m
    cases m with
    | zero => simp [Seq.record]
    | succ m => simp [Seq.record, List.replicate_succ, ih m]

theorem zip_take_take {α β : Type} (xs : List α) (ys : List β) (n : Nat)
    (h : min xs.length ys.length ≤ n) :
    List.zip (xs.take n) (ys.take n) = List.zip xs ys := by
  have : List.zip (xs.take n) (ys.take n) = (List.zip xs ys).take n := by
    simp [List.zip, List.take_zipWith]
  rw [this, List.take_of_length_le (by simpa [List.length_zip] using h)]

theorem zip_spy_run {κa σa T κb σb U : Type} (a : Seq κa σa T) (b : Seq κb σb U)
    (ha : a.Obeys) (hb : b.Obeys) (xs : List T) (ys : List U) (ka : κa) (kb : κb)
    (hea : a.Emits (a.enter a.vars) xs ka) (heb : b.Emits (b.enter b.vars) ys kb)
    (fuel : Nat) (hf : min xs.length ys.length + 1 ≤ fuel) :
    ∃ ka1 kb1, (zip (spy a) (spy b)).call collect fuel []
      = .returned
          (.closed (ka1,
              (xs.take (min xs.length ys.length)).map (fun x => (x, true))
                ++ ((xs.drop (min xs.length ys.length)).take 1).map (fun x => (x, false))),
            .closed (kb1,
              (ys.take (min xs.length ys.length)).map (fun y => (y, true))
                ++ ((ys.drop (min xs.length ys.length)).take 1).map (fun y => (y, false))))
          (List.zip xs ys) := by
  have hta : ∀ n, (spy a).takeFrom n (spy.watch (a.enter a.vars) []) = xs.take n := by
    intro n; rw [spy_takeFrom]; exact takeFrom_of_emits a hea n
  have htb : ∀ n, (spy b).takeFrom n (spy.watch (b.enter b.vars) []) = ys.take n := by
    intro n; rw [spy_takeFrom]; exact takeFrom_of_emits b heb n
  have hz : List.zip (xs.take (min xs.length ys.length + 1))
      (ys.take (min xs.length ys.length + 1)) = List.zip xs ys :=
    zip_take_take xs ys _ (by omega)
  have hshort : ((spy a).takeFrom (min xs.length ys.length + 1)
        (Cursor.ahead (spy a) (.fresh (a.vars, [])))).length < min xs.length ys.length + 1 ∨
      ((spy b).takeFrom (min xs.length ys.length + 1)
        (Cursor.ahead (spy b) (.fresh (b.vars, [])))).length < min xs.length ys.length + 1 := by
    have e1 : Cursor.ahead (spy a) (.fresh (a.vars, [])) = spy.watch (a.enter a.vars) [] := rfl
    have e2 : Cursor.ahead (spy b) (.fresh (b.vars, [])) = spy.watch (b.enter b.vars) [] := rfl
    rw [e1, e2, hta, htb]
    simp only [List.length_take]
    omega
  have := zip_drain (spy a) (spy b) (min xs.length ys.length + 1) fuel
    (.fresh (a.vars, [])) (.fresh (b.vars, [])) [] hf hshort
  have e1 : Cursor.ahead (spy a) (.fresh (a.vars, [])) = spy.watch (a.enter a.vars) [] := rfl
  have e2 : Cursor.ahead (spy b) (.fresh (b.vars, [])) = spy.watch (b.enter b.vars) [] := rfl
  rw [e1, e2, hta, htb, hz] at this
  have hlen : (List.zip xs ys).length = min xs.length ys.length := by simp [List.length_zip]
  obtain ⟨ka1, hka⟩ := feed_of_emits a ha hea (min xs.length ys.length)
  obtain ⟨kb1, hkb⟩ := feed_of_emits b hb heb (min xs.length ys.length)
  rw [hlen, spy_feed, spy_feed, hka, hkb, record_of_emits a hea, record_of_emits b heb] at this
  refine ⟨ka1, kb1, ?_⟩
  simpa [Seq.call, zip, spy, spy.watch, zip.outcome] using this

theorem drop_take_one {α : Type} (xs : List α) (m : Nat) (h : m < xs.length) :
    (xs.drop m).take 1 = [xs.get ⟨m, h⟩] := by
  rw [List.drop_eq_getElem_cons h]
  rfl

theorem drop_take_one_nil {α : Type} (xs : List α) (m : Nat) (h : xs.length ≤ m) :
    (xs.drop m).take 1 = [] := by
  rw [List.drop_of_length_le h]
  rfl

theorem zip_append_singleton_left {α β : Type} (l : List α) (x : α) (ys : List β)
    (h : l.length = ys.length) : List.zip (l ++ [x]) ys = List.zip l ys := by
  have := @List.zip_append α β l [x] ys [] h
  simpa using this

theorem zip_append_singleton_right {α β : Type} (xs : List α) (l : List β) (y : β)
    (h : xs.length = l.length) : List.zip xs (l ++ [y]) = List.zip xs l := by
  have := @List.zip_append α β xs [] l [y] h
  simpa using this

theorem zip_spy_run_take {κa σa T κb σb U : Type} (a : Seq κa σa T) (b : Seq κb σb U)
    (n fuel : Nat) (hf : n ≤ fuel)
    (hshort : (a.take n).length < n ∨ (b.take n).length < n) (kfa : κa) (kfb : κb)
    (hfa : a.feed (List.replicate (List.zip (a.take n) (b.take n)).length true ++ [false])
      (a.enter a.vars) = .done kfa)
    (hfb : b.feed (List.replicate (List.zip (a.take n) (b.take n)).length true ++ [false])
      (b.enter b.vars) = .done kfb) :
    (zip (spy a) (spy b)).call collect fuel []
      = .returned
          (.closed (kfa,
              a.record (List.replicate (List.zip (a.take n) (b.take n)).length true ++ [false])
                (a.enter a.vars)),
            .closed (kfb,
              b.record (List.replicate (List.zip (a.take n) (b.take n)).length true ++ [false])
                (b.enter b.vars)))
          (List.zip (a.take n) (b.take n)) := by
  have e1 : Cursor.ahead (spy a) (.fresh (a.vars, [])) = spy.watch (a.enter a.vars) [] := rfl
  have e2 : Cursor.ahead (spy b) (.fresh (b.vars, [])) = spy.watch (b.enter b.vars) [] := rfl
  have hta : (spy a).takeFrom n (spy.watch (a.enter a.vars) []) = a.take n := spy_takeFrom a n _ _
  have htb : (spy b).takeFrom n (spy.watch (b.enter b.vars) []) = b.take n := spy_takeFrom b n _ _
  have := zip_drain (spy a) (spy b) n fuel (.fresh (a.vars, [])) (.fresh (b.vars, [])) [] hf
    (by rw [e1, e2, hta, htb]; exact hshort)
  rw [e1, e2, hta, htb, spy_feed, spy_feed, hfa, hfb] at this
  simpa [Seq.call, zip, spy, spy.watch, zip.outcome] using this

/-- C12, as the code has it.  Let `a` and `b` be any two producers that obey the
stop rule, finite or not, and drive `zip(a, b)` by a step that always continues.
It hands over the pairs of the common positions and no further pair, returns,
and drains neither side.  If both sides run out at the same position, each has
been asked for its own values only.  If `b` runs out while `a` still has a value
`x` at that position, `a` has handed over `x` (its `next()` comes before that of
`b`), `x` is in no pair, `a` is told to stop on it and is asked for nothing
more.  If `a` runs out while `b` still has a value `y` at that position, `b` is
still asked for `y` in that round: whenever `next()` of `a` reports exhaustion
and `next()` of `b` then returns a value, the loop is left with the cursor of
`b` moved past that value; `y` is in no pair, and `b` is told to stop on it and
is asked for nothing more. -/
theorem zip_tie_break {κa σa T κb σb U : Type} (a : Seq κa σa T) (b : Seq κb σb U)
    (ha : a.Obeys) (hb : b.Obeys) :
    (∀ (f g : Nat) (ka : κa) (kb : κb) (xs : List T) (ys : List U),
      a.call collect f [] = .returned ka xs → b.call collect g [] = .returned kb ys →
      xs.length = ys.length →
      ∀ fuel, xs.length + 1 ≤ fuel →
        ∃ ka1 kb1, (zip (spy a) (spy b)).call collect fuel []
          = .returned (.closed (ka1, xs.map (fun x => (x, true))),
              .closed (kb1, ys.map (fun y => (y, true)))) (List.zip xs ys)) ∧
    (∀ (g : Nat) (kb : κb) (ys : List U) (pre : List T) (x : T),
      b.call collect g [] = .returned kb ys → pre.length = ys.length →
      a.take (ys.length + 1) = pre ++ [x] →
      ∀ fuel, ys.length + 1 ≤ fuel →
        ∃ ka1 kb1, (zip (spy a) (spy b)).call collect fuel []
          = .returned
              (.closed (ka1, pre.map (fun x => (x, true)) ++ [(x, false)]),
               .closed (kb1, ys.map (fun y => (y, true)))) (List.zip pre ys)) ∧
    (∀ (f : Nat) (ka : κa) (xs : List T) (pre : List U) (y : U),
      a.call collect f [] = .returned ka xs → pre.length = xs.length →
      b.take (xs.length + 1) = pre ++ [y] →
      ∀ fuel, xs.length + 1 ≤ fuel →
        ∃ ka1 kb1, (zip (spy a) (spy b)).call collect fuel []
          = .returned
              (.closed (ka1, xs.map (fun x => (x, true))),
               .closed (kb1, pre.map (fun y => (y, true)) ++ [(y, false)])) (List.zip xs pre)) ∧
    (∀ (ca ca1 : Cursor κa σa) (cb cb1 : Cursor κb σb) (y : U),
      pullNext a ca = some (none, ca1) → pullNext b cb = some (some y, cb1) →
      zip.advance a b ca cb = zip.leave a b ca1 cb1) ∧
    (∀ (ca ca1 : Cursor κa σa) (cb cb1 : Cursor κb σb) (x : T),
      pullNext a ca = some (some x, ca1) → pullNext b cb = some (none, cb1) →
      zip.advance a b ca cb = zip.leave a b ca1 cb1) := by
  refine ⟨?_, ?_, ?_, ?_, ?_⟩
  · intro f g ka kb xs ys hxa hyb heq fuel hf
    obtain ⟨rx, hrx, hea⟩ := emits_of_callFrom a f _ _ _ _ hxa
    obtain ⟨ry, hry, heb⟩ := emits_of_callFrom b g _ _ _ _ hyb
    simp only [List.nil_append] at hrx hry
    subst hrx hry
    obtain ⟨ka1, kb1, hrun⟩ := zip_spy_run a b ha hb xs ys ka kb hea heb fuel
      (by rw [heq, Nat.min_self]; omega)
    refine ⟨ka1, kb1, ?_⟩
    rw [hrun, heq, Nat.min_self, ← heq, List.take_of_length_le (le_refl _),
      drop_take_one_nil xs _ (le_refl _), heq, List.take_of_length_le (le_refl _),
      drop_take_one_nil ys _ (le_refl _)]
    simp
  · intro g kb ys pre x hyb hpl hta fuel hf
    obtain ⟨ry, hry, heb⟩ := emits_of_callFrom b g _ _ _ _ hyb
    simp only [List.nil_append] at hry
    subst hry
    have htb : b.take (ys.length + 1) = ys := by
      have := takeFrom_of_emits b heb (ys.length + 1)
      rw [List.take_of_length_le (by omega)] at this
      exact this
    have hz : List.zip (a.take (ys.length + 1)) (b.take (ys.length + 1)) = List.zip pre ys := by
      rw [hta, htb, zip_append_singleton_left pre x ys hpl]
    have hzl : (List.zip pre ys).length = ys.length := by simp [List.length_zip, hpl]
    have hlen : (a.takeFrom (ys.length + 1) (a.enter a.vars)).length = ys.length + 1 := by
      have := congrArg List.length hta
      simpa [Seq.take, hpl] using this
    obtain ⟨kfa, hka⟩ := feed_stop_done a ha ys.length (a.enter a.vars) hlen
    obtain ⟨kfb, hkb⟩ := feed_of_emits b hb heb ys.length
    have hrun := zip_spy_run_take a b (ys.length + 1) fuel hf
      (Or.inr (by rw [htb]; omega)) kfa kfb (by rw [hz, hzl]; exact hka)
      (by rw [hz, hzl]; exact hkb)
    rw [hz, hzl] at hrun
    have hra := record_stop a x pre (a.enter a.vars) (by rw [hpl]; exact hta)
    rw [hpl] at hra
    have hrb := record_of_emits b heb ys.length
    rw [List.take_of_length_le (le_refl _), drop_take_one_nil ys _ (le_refl _)] at hrb
    rw [hra, hrb] at hrun
    exact ⟨kfa, kfb, by simpa using hrun⟩
  · intro f ka xs pre y hxa hpl htb fuel hf
    obtain ⟨rx, hrx, hea⟩ := emits_of_callFrom a f _ _ _ _ hxa
    simp only [List.nil_append] at hrx
    subst hrx
    have hta : a.take (xs.length + 1) = xs := by
      have := takeFrom_of_emits a hea (xs.length + 1)
      rw [List.take_of_length_le (by omega)] at this
      exact this
    have hz : List.zip (a.take (xs.length + 1)) (b.take (xs.length + 1)) = List.zip xs pre := by
      rw [hta, htb, zip_append_singleton_right xs pre y hpl.symm]
    have hzl : (List.zip xs pre).length = xs.length := by simp [List.length_zip, hpl]
    have hlen : (b.takeFrom (xs.length + 1) (b.enter b.vars)).length = xs.length + 1 := by
      have := congrArg List.length htb
      simpa [Seq.take, hpl] using this
    obtain ⟨kfa, hka⟩ := feed_of_emits a ha hea xs.length
    obtain ⟨kfb, hkb⟩ := feed_stop_done b hb xs.length (b.enter b.vars) hlen
    have hrun := zip_spy_run_take a b (xs.length + 1) fuel hf
      (Or.inl (by rw [hta]; omega)) kfa kfb (by rw [hz, hzl]; exact hka)
      (by rw [hz, hzl]; exact hkb)
    rw [hz, hzl] at hrun
    have hrb := record_stop b y pre (b.enter b.vars) (by rw [hpl]; exact htb)
    rw [hpl] at hrb
    have hra := record_of_emits a hea xs.length
    rw [List.take_of_length_le (le_refl _), drop_take_one_nil xs _ (le_refl _)] at hra
    rw [hra, hrb] at hrun
    exact ⟨kfa, kfb, by simpa using hrun⟩
  · intro ca ca1 cb cb1 y h1 h2
    simp [zip.advance, h1, h2]
  · intro ca ca1 cb cb1 x h1 h2
    simp [zip.advance, h1, h2]

/-- Witness for C12: the endless count from 0 zipped with the range 10, 11; the
side that runs out is `b`, and `a` is infinite. -/
theorem zip_tie_break_witness :
    ∃ ka1 kb1, (zip (spy (numbersFrom 0)) (spy (intsFromTo 10 12))).call collect 3 []
      = .returned
          (.closed (ka1, [(0, true), (1, true), (2, false)]),
           .closed (kb1, [(10, true), (11, true)])) [(0, 10), (1, 11)] :=
  (zip_tie_break (numbersFrom 0) (intsFromTo 10 12) (obeys_numbersFrom 0)
    (obeys_intsFromTo 10 12)).2.1 2 12 [10, 11] [0, 1] 2 (by decide) (by decide) (by decide) 3
    (by decide)

/-- Counterexample to C12 as stated: `a` is the range 0 and `b` the range
10 .. 14.  After the pair `(0, 10)` the second `next()` of `a` reports
exhaustion (`a` has been asked for one value only); `b`, which until then had
been asked for 10 only, is then asked for 11 as well, so it has handed over two
values for one pair. -/
theorem zip_tie_break_counterexample :
    (zip (spy (intsFromTo 0 1)) (spy (intsFromTo 10 15))).call collect 2 []
        = .returned (.closed (1, [(0, true)]), .closed (12, [(10, true), (11, false)]))
            [(0, 10)] ∧
      ([(10, true), (11, false)] : List (Int × Bool)).length
        ≠ ([(0, 10)] : List (Int × Int)).length :=
  ⟨rfl, by decide⟩

/-- C19 (what zip consumes).  Let `a` and `b` obey the stop rule and be finite
with values `xs` and `ys`, and let `m = min(|xs|, |ys|)`.  One drive of a fresh
`zip(a, b)` by a step that always continues returns with the `m` pairs of `xs`
zipped with `ys`; the cursor of `a` has obtained exactly the first
`min(|xs|, m + 1)` values of `a` and the cursor of `b` exactly the first
`min(|ys|, m + 1)` values of `b`.  So when the lengths differ the longer side,
whichever it is, has had exactly one value consumed that is in no pair. -/
theorem zip_consumption {κa σa T κb σb U : Type} (a : Seq κa σa T) (b : Seq κb σb U)
    (ha : a.Obeys) (hb : b.Obeys) (f g : Nat) (ka : κa) (kb : κb) (xs : List T) (ys : List U)
    (hxa : a.call collect f [] = .returned ka xs) (hyb : b.call collect g [] = .returned kb ys)
    (fuel : Nat) (hf : min xs.length ys.length + 1 ≤ fuel) :
    ∃ ka1 kb1 loga logb,
      (zip (spy a) (spy b)).call collect fuel []
        = .returned (.closed (ka1, loga), .closed (kb1, logb)) (List.zip xs ys) ∧
      (List.zip xs ys).length = min xs.length ys.length ∧
      loga.map Prod.fst = xs.take (min xs.length ys.length + 1) ∧
      logb.map Prod.fst = ys.take (min xs.length ys.length + 1) ∧
      loga.length = min xs.length (min xs.length ys.length + 1) ∧
      logb.length = min ys.length (min xs.length ys.length + 1) ∧
      (ys.length < xs.length →
        loga.length = (List.zip xs ys).length + 1 ∧ logb.length = (List.zip xs ys).length) ∧
      (xs.length < ys.length →
        logb.length = (List.zip xs ys).length + 1 ∧ loga.length = (List.zip xs ys).length) := by
  obtain ⟨rx, hrx, hea⟩ := emits_of_callFrom a f _ _ _ _ hxa
  obtain ⟨ry, hry, heb⟩ := emits_of_callFrom b g _ _ _ _ hyb
  simp only [List.nil_append] at hrx hry
  subst hrx hry
  obtain ⟨ka1, kb1, hrun⟩ := zip_spy_run a b ha hb xs ys ka kb hea heb fuel hf
  have hfst : ∀ {α : Type} (l : List α) (m : Nat),
      ((l.take m).map (fun x => (x, true)) ++ ((l.drop m).take 1).map (fun x => (x, false))).map
        Prod.fst = l.take (m + 1) := by
    intro α l m
    simp only [List.map_append, List.map_map]
    have e1 : (Prod.fst ∘ fun (x : α) => (x, true)) = id := rfl
    have e2 : (Prod.fst ∘ fun (x : α) => (x, false)) = id := rfl
    rw [e1, e2, List.map_id, List.map_id, List.take_add]
  have hlen : ∀ {α : Type} (l : List α) (m : Nat),
      ((l.take m).map (fun x => (x, true))
        ++ ((l.drop m).take 1).map (fun x => (x, false))).length = min l.length (m + 1) := by
    intro α l m
    simp only [List.length_append, List.length_map, List.length_take, List.length_drop]
    omega
  have hz : (List.zip xs ys).length = min xs.length ys.length := by simp [List.length_zip]
  refine ⟨ka1, kb1, _, _, hrun, hz, hfst xs _, hfst ys _, hlen xs _, hlen ys _, ?_, ?_⟩
  · intro h
    rw [hlen, hlen, hz]
    omega
  · intro h
    rw [hlen, hlen, hz]
    omega

/-- Witness for C19: the range 0 .. 3 zipped with the range 10, 11. -/
theorem zip_consumption_witness :
    ∃ ka1 kb1 loga logb,
      (zip (spy (intsFromTo 0 4)) (spy (intsFromTo 10 12))).call collect 3 []
        = .returned (.closed (ka1, loga), .closed (kb1, logb)) [(0, 10), (1, 11)] ∧
      loga.map Prod.fst = [0, 1, 2] ∧ logb.map Prod.fst = [10, 11] := by
  obtain ⟨ka1, kb1, loga, logb, h1, -, h2, h3, -⟩ :=
    zip_consumption (intsFromTo 0 4) (intsFromTo 10 12) (obeys_intsFromTo 0 4)
      (obeys_intsFromTo 10 12) 4 2 4 12 [0, 1, 2, 3] [10, 11] (by decide) (by decide) 3
      (by decide)
  exact ⟨ka1, kb1, loga, logb, h1, h2, h3⟩

/-! ### `reduceToSlice` -/

theorem foldl_append_singleton {T : Type} (xs acc : List T) :
    xs.foldl (fun (u : List T) v => ((u ++ [v], (none : Option Unit)) : List T × Option Unit).1) acc
      = acc ++ xs := by
  induction xs generalizing acc with
  | nil => simp
  | cons x xs ih => simp [List.foldl_cons, ih]

theorem neverFails_append {T : Type} :
    ∀ (xs acc : List T),
      NeverFails (fun (agg : List T) (val : T) => (agg ++ [val], (none : Option Unit))) acc xs := by
  intro xs
  induction xs with
  | nil => intro acc; trivial
  | cons x xs ih => intro acc; exact ⟨rfl, ih _⟩

theorem rangeFrom_total_no_error {κ σ T U E : Type} (P : Seq κ σ T)
    (combine : U → T → U × Option E) (hc : ∀ u v, (combine u v).2 = none) :
    ∀ (fuel : Nat) (a : Susp κ σ T) (u : U),
      (P.rangeFrom (reduce.body combine) fuel a (u, none)).state.2 = none := by
  intro fuel
  induction fuel with
  | zero => intro a u; cases a <;> rfl
  | succ f ih =>
    intro a u
    cases a with
    | done k => rfl
    | crash => rfl
    | yield v s =>
      have h1 := hc u v
      have h2 : combine u v = ((combine u v).1, none) := Prod.ext rfl h1
      simp only [Seq.rangeFrom, reduce.body, h1, Option.isSome_none, Bool.false_eq_true,
        if_false, if_true]
      rw [h2]
      exact ih _ _

/-- C13 (reduceToSlice).  For a finite producer with values `xs`,
`reduceToSlice` returns exactly `xs`, every value once and in production order
(the empty list for a producer that yields nothing), and leaves the producer as
a drive to exhaustion leaves it.  It has no failure path: whatever the producer
and however far the drive gets, the error of the inner `reduce` is nil. -/
theorem reduceToSlice_all {κ σ T : Type} (P : Seq κ σ T) :
    (∀ (f : Nat) (k : κ) (xs : List T), P.call collect f [] = .returned k xs →
      ∀ fuel, xs.length ≤ fuel → reduceToSlice P fuel = .returned k xs) ∧
    (∀ (f : Nat) (k : κ), P.call collect f [] = .returned k [] →
      ∀ fuel, reduceToSlice P fuel = .returned k []) ∧
    (∀ fuel,
      (reduce P ([] : List T) (fun agg val => (agg ++ [val], (none : Option Unit))) fuel).state.2
        = none) := by
  have key : ∀ (f : Nat) (k : κ) (xs : List T), P.call collect f [] = .returned k xs →
      ∀ fuel, xs.length ≤ fuel → reduceToSlice P fuel = .returned k xs := by
    intro f k xs h fuel hf
    obtain ⟨rest, hx, he⟩ := emits_of_callFrom P f _ _ _ _ h
    simp only [List.nil_append] at hx
    subst hx
    have := rangeFrom_reduce_of_emits P
      (fun (agg : List T) (val : T) => (agg ++ [val], (none : Option Unit))) he []
      (neverFails_append xs []) fuel hf
    rw [foldl_append_singleton] at this
    simp only [reduceToSlice, reduce, Seq.forRange]
    rw [this]
    simp
  refine ⟨key, ?_, ?_⟩
  · intro f k h fuel
    exact key f k [] h fuel (by simp)
  · intro fuel
    exact rangeFrom_total_no_error P _ (fun _ _ => rfl) fuel (P.enter P.vars) []

/-- Witness for C13: the slice of the range 3 .. 6. -/
theorem reduceToSlice_all_witness :
    reduceToSlice (intsFromTo 3 7) 4 = .returned 7 [3, 4, 5, 6] :=
  (reduceToSlice_all (intsFromTo 3 7)).1 4 7 [3, 4, 5, 6] (by decide) 4 (by decide)

/-! ### `intsFromTo` -/

theorem intsFromTo_resume_true (i0 hi i : Int) (h1 : -2 ^ 63 ≤ i) (h2 : i < hi)
    (h3 : hi < 2 ^ 63) :
    (intsFromTo i0 hi).resume i true = (intsFromTo i0 hi).enter (i + 1) := by
  have hw : wrap (i + 1) = i + 1 := wrap_eq_self (by omega) (by omega)
  simp [intsFromTo, hw]

theorem intsFromTo_collect (i0 hi : Int) (h3 : hi < 2 ^ 63) :
    ∀ (n : Nat) (i : Int), -2 ^ 63 ≤ i → (hi - i).toNat = n →
      ∀ (fuel : Nat) (acc : List Int), n ≤ fuel →
        (intsFromTo i0 hi).callFrom collect fuel ((intsFromTo i0 hi).enter i) acc
          = .returned (if i < hi then hi else i)
              (acc ++ (List.range n).map (fun (j : Nat) => i + (j : Int))) := by
  intro n
  induction n with
  | zero =>
    intro i _ hn fuel acc _
    have hle : ¬ i < hi := by omega
    have he : (intsFromTo i0 hi).enter i = .done i := by simp [intsFromTo, hle]
    rw [he]
    cases fuel <;> simp [Seq.callFrom, hle]
  | succ n ih =>
    intro i h1 hn fuel acc hf
    have hlt : i < hi := by omega
    obtain ⟨f, rfl⟩ : ∃ f, fuel = f + 1 := ⟨fuel - 1, by omega⟩
    have he : (intsFromTo i0 hi).enter i = .yield i i := by simp [intsFromTo, hlt]
    rw [he]
    simp only [Seq.callFrom, collect]
    rw [intsFromTo_resume_true i0 hi i h1 hlt h3, ih (i + 1) (by omega) (by omega) f _ (by omega)]
    have hfin : (if i + 1 < hi then hi else i + 1) = (if i < hi then hi else i) := by
      simp only [hlt, if_true]
      split <;> omega
    rw [hfin, List.range_succ_eq_map]
    simp only [List.map_cons, List.map_map, List.append_assoc, List.singleton_append,
      Nat.cast_zero, add_zero, Run.returned.injEq, true_and, List.append_cancel_left_eq,
      List.cons.injEq]
    apply List.map_congr_left
    intro j _
    simp only [Function.comp, Nat.succ_eq_add_one]
    push_cast
    ring

/-- C14 (integer range).  For all Go integers `lo` and `hi`, a drive of a fresh
`intsFromTo(lo, hi)` by a step that always continues returns within `hi - lo`
callback invocations, having handed over exactly `lo, lo+1, ..., hi-1` in
increasing order when `lo < hi` (`hi - lo` values) and nothing when
`lo >= hi`. -/
theorem intsFromTo_range (lo hi : Int) (h1 : -2 ^ 63 ≤ lo) (h2 : hi < 2 ^ 63) (fuel : Nat)
    (hf : (hi - lo).toNat ≤ fuel) :
    (intsFromTo lo hi).call collect fuel []
        = .returned (if lo < hi then hi else lo)
            ((List.range (hi - lo).toNat).map (fun (j : Nat) => lo + (j : Int))) ∧
    ((List.range (hi - lo).toNat).map (fun (j : Nat) => lo + (j : Int))).length
        = (hi - lo).toNat ∧
    (hi ≤ lo → (intsFromTo lo hi).call collect fuel [] = .returned lo []) := by
  have key := intsFromTo_collect lo hi h2 (hi - lo).toNat lo h1 rfl fuel [] hf
  have key2 : (intsFromTo lo hi).call collect fuel []
      = .returned (if lo < hi then hi else lo)
          ((List.range (hi - lo).toNat).map (fun (j : Nat) => lo + (j : Int))) := by
    simpa [Seq.call, intsFromTo] using key
  refine ⟨key2, by simp, ?_⟩
  intro hle
  have hz : (hi - lo).toNat = 0 := by omega
  have hn : ¬ lo < hi := by omega
  rw [key2, hz]
  simp [hn]

/-- Witness for C14: the range 3 .. 6. -/
theorem intsFromTo_range_witness :
    (intsFromTo 3 7).call collect 4 [] = .returned 7 [3, 4, 5, 6] :=
  (intsFromTo_range 3 7 (by decide) (by decide) 4 (by decide)).1

/-! ### `limit2` -/

theorem limit2_eq_limit {κ σ T U : Type} (src : Seq κ σ (T × U)) (cnt : Int) :
    limit2 src cnt = limit src cnt := by
  have hl : ∀ (s : σ) (c : Int), limit2.leave src s c = limit.leave src s c := by
    intro s c
    unfold limit2.leave limit.leave
    cases src.resume s false <;> rfl
  have hloop : ∀ (a : Susp κ σ (T × U)) (c : Int), limit2.loop src a c = limit.loop src a c := by
    intro a c
    cases a with
    | done k => rfl
    | crash => rfl
    | yield v s =>
      unfold limit2.loop limit.loop
      simp only [hl]
  unfold limit2 limit
  congr 1
  · funext k; exact hloop _ _
  · funext s ok
    cases ok
    · exact hl _ _
    · exact hloop _ _

/-- C15 (`limit2` is `limit`).  For every key/value producer, count, step
callback, fuel and callback state, a drive of `limit2(S, N)` and a drive of
`limit(S, N)` over the same source seen as a producer of pairs end alike: the
step gets the same pairs, and the spied source records the same values with
the same answers, in the same order.  The two closures are in fact the same
producer. -/
theorem limit2_same {κ σ T U S : Type} (src : Seq κ σ (T × U)) (cnt : Int)
    (step : T × U → S → Bool × S) (fuel : Nat) (s : S) :
    (limit2 src cnt).call step fuel s = (limit src cnt).call step fuel s ∧
    (limit2 (spy src) cnt).call (logged step) fuel (s, [])
        = (limit (spy src) cnt).call (logged step) fuel (s, []) ∧
    limit2 src cnt = limit src cnt := by
  refine ⟨?_, ?_, limit2_eq_limit src cnt⟩
  · rw [limit2_eq_limit]
  · rw [limit2_eq_limit]

/-! ### `limit`: calls of the upstream callback -/

theorem spy_emits {κ σ T : Type} (P : Seq κ σ T) {a : Susp κ σ T} {xs : List T} {k : κ}
    (h : P.Emits a xs k) :
    ∀ (log : List (T × Bool)),
      (spy P).Emits (spy.watch a log) xs (k, log ++ xs.map (fun x => (x, true))) := by
  induction h with
  | done k => intro log; simpa [spy.watch] using Seq.Emits.done (p := spy P) (k, log)
  | yield v s xs k _ ih =>
    intro log
    have := ih (log ++ [(v, true)])
    simp only [List.append_assoc, List.singleton_append] at this
    exact Seq.Emits.yield v (s, v, log) xs _ this

theorem limit_exhaust {κ σ T : Type} (P : Seq κ σ T) (c0 : Int) {a : Susp κ σ T}
    {xs : List T} {k : κ} (h : P.Emits a xs k) :
    ∀ (cnt : Int) (fuel : Nat) (acc : List T), (xs.length : Int) ≤ cnt → cnt < 2 ^ 63 →
      xs.length ≤ fuel →
      (limit P c0).callFrom collect fuel (limit.loop P a cnt) acc
        = .returned (k, cnt - xs.length) (acc ++ xs) := by
  induction h with
  | done k => intro cnt fuel acc _ _ _; cases fuel <;> simp [limit.loop, Seq.callFrom]
  | yield v s xs k _ ih =>
    intro cnt fuel acc hc hlt hf
    obtain ⟨f, rfl⟩ : ∃ f, fuel = f + 1 := ⟨fuel - 1, by simp at hf; omega⟩
    have hpos : ¬ cnt ≤ 0 := by simp at hc; omega
    have hw : wrap (cnt - 1) = cnt - 1 := wrap_eq_self (by omega) (by omega)
    have := ih (cnt - 1) f (acc ++ [v]) (by simp at hc; omega) (by omega)
      (by simp at hf; omega)
    have e3 : cnt - 1 - (xs.length : Int) = cnt - (((v :: xs).length : Nat) : Int) := by
      simp only [List.length_cons]; push_cast; ring
    simp only [limit.loop, hpos, if_false, Seq.callFrom, collect, hw]
    simp only [limit, Bool.not_true, Bool.false_eq_true, if_false, e3, List.append_assoc,
      List.singleton_append] at this ⊢
    exact this

/-- C17 (the extra upstream call).  Let `P` obey the stop rule and let `N >= 0`
be a count a Go `int` can hold; drive a fresh `limit(P, N)` by a step that
always continues.  When `P` has more than `N` values, the callback that `limit`
hands to `P` is invoked exactly `N + 1` times: `P` hands over its `(N+1)`-th
value too, and it is on that value, not on the `N`-th, that `P` is answered
`false`.  When `P` is finite with at most `N` values, the callback is invoked
once per value of `P` and always answered `true`.  Either way the number of
invocations is `min(N + 1, |P|)`. -/
theorem limit_upstream_calls {κ σ T : Type} (P : Seq κ σ T) (hP : P.Obeys) (N : Int)
    (h0 : 0 ≤ N) (hN : N < 2 ^ 63) :
    ((P.take (N.toNat + 1)).length = N.toNat + 1 →
      ∀ fuel, N.toNat ≤ fuel →
        ∃ kf v log, P.take (N.toNat + 1) = P.take N.toNat ++ [v] ∧
          (limit (spy P) N).call collect fuel [] = .returned ((kf, log), 0) (P.take N.toNat) ∧
          log = (P.take N.toNat).map (fun x => (x, true)) ++ [(v, false)] ∧
          log.length = N.toNat + 1) ∧
    (∀ (f : Nat) (k : κ) (xs : List T), P.call collect f [] = .returned k xs →
      (xs.length : Int) ≤ N →
      ∀ fuel, xs.length ≤ fuel →
        ∃ log, (limit (spy P) N).call collect fuel []
            = .returned ((k, log), N - xs.length) xs ∧
          log = xs.map (fun x => (x, true)) ∧
          log.length = min (N.toNat + 1) xs.length) := by
  refine ⟨?_, ?_⟩
  · intro hl fuel hf
    obtain ⟨kf, v, hv, hrun⟩ := limit_drain_spy P hP N hN hl fuel hf
    have hz : N - (N.toNat : Int) = 0 := by omega
    rw [hz] at hrun
    have hlen : (P.take N.toNat).length = N.toNat := by
      have h1 := congrArg List.length hv
      rw [hl] at h1
      simp at h1
      omega
    exact ⟨kf, v, _, hv, hrun, rfl, by simp [hlen]⟩
  · intro f k xs h hle fuel hf
    obtain ⟨rest, hx, he⟩ := emits_of_callFrom P f _ _ _ _ h
    simp only [List.nil_append] at hx
    subst hx
    have hs := spy_emits P he []
    have := limit_exhaust (spy P) N hs N fuel [] hle hN hf
    refine ⟨_, ?_, rfl, ?_⟩
    · simpa [Seq.call, limit, spy] using this
    · simp only [List.length_map]
      omega

/-- Witness for C17: counting from 1 under `limit(_, 2)`. -/
theorem limit_upstream_calls_witness :
    ∃ kf v log,
      (numbersFrom 1).take ((2 : Int).toNat + 1) = (numbersFrom 1).take (2 : Int).toNat ++ [v] ∧
      (limit (spy (numbersFrom 1)) 2).call collect 2 []
        = .returned ((kf, log), 0) ((numbersFrom 1).take (2 : Int).toNat) ∧
      log = ((numbersFrom 1).take (2 : Int).toNat).map (fun x => (x, true)) ++ [(v, false)] ∧
      log.length = (2 : Int).toNat + 1 :=
  (limit_upstream_calls (numbersFrom 1) (obeys_numbersFrom 1) 2 (by decide) (by decide)).1
    (by decide) 2 (by decide)

/-! ### `limit`: the count over several drives -/

theorem limit_count {κ σ T S : Type} (P : Seq κ σ T) (c0 : Int) (step : T → S → Bool × S) :
    ∀ (fuel : Nat) (a : Susp κ σ T) (cnt : Int) (s : S) (l : List Bool), cnt < 2 ^ 63 →
      ∃ l2,
        ((limit P c0).callFrom (logged step) fuel (limit.loop P a cnt) (s, l)).state.2 = l ++ l2 ∧
        l2.length ≤ cnt.toNat ∧
        (cnt ≤ 0 →
          ((limit P c0).callFrom (logged step) fuel (limit.loop P a cnt) (s, l)).state = (s, l)) ∧
        (∀ k c s1,
          (limit P c0).callFrom (logged step) fuel (limit.loop P a cnt) (s, l)
            = .returned (k, c) s1 →
          c.toNat + l2.length = cnt.toNat ∧ c < 2 ^ 63) := by
  intro fuel
  induction fuel with
  | zero =>
    intro a cnt s l hlt
    refine ⟨[], ?_, by simp, ?_, ?_⟩
    · cases a with
      | done k => simp [limit.loop, Seq.callFrom, Run.state]
      | crash => simp [limit.loop, Seq.callFrom, Run.state]
      | yield v st =>
        simp only [limit.loop, limit.leave]
        split
        · cases P.resume st false <;> simp [Seq.callFrom, Run.state]
        · simp [Seq.callFrom, Run.state]
    · intro hle
      cases a with
      | done k => simp [limit.loop, Seq.callFrom, Run.state]
      | crash => simp [limit.loop, Seq.callFrom, Run.state]
      | yield v st =>
        simp only [limit.loop, limit.leave, hle, if_true]
        cases P.resume st false <;> simp [Seq.callFrom, Run.state]
    · intro k c s1 h
      cases a with
      | done k1 =>
        simp only [limit.loop, Seq.callFrom, Run.returned.injEq, Prod.mk.injEq] at h
        rw [← h.1.2]; exact ⟨by simp, hlt⟩
      | crash => simp [limit.loop, Seq.callFrom] at h
      | yield v st =>
        simp only [limit.loop, limit.leave] at h
        split at h
        · cases hr : P.resume st false with
          | done k1 =>
            rw [hr] at h
            simp only [Seq.callFrom, Run.returned.injEq, Prod.mk.injEq] at h
            rw [← h.1.2]; exact ⟨by simp, hlt⟩
          | yield w s2 => rw [hr] at h; simp [Seq.callFrom] at h
          | crash => rw [hr] at h; simp [Seq.callFrom] at h
        · simp [Seq.callFrom] at h
  | succ f ih =>
    intro a cnt s l hlt
    cases a with
    | done k =>
      refine ⟨[], by simp [limit.loop, Seq.callFrom, Run.state], by simp,
        fun _ => by simp [limit.loop, Seq.callFrom, Run.state], ?_⟩
      intro k1 c s1 h
      simp only [limit.loop, Seq.callFrom, Run.returned.injEq, Prod.mk.injEq] at h
      rw [← h.1.2]; exact ⟨by simp, hlt⟩
    | crash =>
      refine ⟨[], by simp [limit.loop, Seq.callFrom, Run.state], by simp,
        fun _ => by simp [limit.loop, Seq.callFrom, Run.state], ?_⟩
      intro k1 c s1 h
      simp [limit.loop, Seq.callFrom] at h
    | yield v st =>
      by_cases hle : cnt ≤ 0
      · have hloop : limit.loop P (.yield v st) cnt = limit.leave P st cnt := by
          simp [limit.loop, hle]
        rw [hloop]
        unfold limit.leave
        cases hr : P.resume st false with
        | done k1 =>
          refine ⟨[], by simp [Seq.callFrom, Run.state], by simp,
            fun _ => by simp [Seq.callFrom, Run.state], ?_⟩
          intro k2 c s1 h
          simp only [Seq.callFrom, Run.returned.injEq, Prod.mk.injEq] at h
          rw [← h.1.2]; exact ⟨by simp, hlt⟩
        | yield w s2 =>
          refine ⟨[], by simp [Seq.callFrom, Run.state], by simp,
            fun _ => by simp [Seq.callFrom, Run.state], ?_⟩
          intro k2 c s1 h
          simp [Seq.callFrom] at h
        | crash =>
          refine ⟨[], by simp [Seq.callFrom, Run.state], by simp,
            fun _ => by simp [Seq.callFrom, Run.state], ?_⟩
          intro k2 c s1 h
          simp [Seq.callFrom] at h
      · have hw : wrap (cnt - 1) = cnt - 1 := wrap_eq_self (by omega) (by omega)
        have hloop : limit.loop P (.yield v st) cnt = .yield v (st, cnt - 1) := by
          simp [limit.loop, hle, hw]
        rw [hloop]
        simp only [Seq.callFrom, logged]
        cases hb : (step v s).1 with
        | true =>
          obtain ⟨l2, h1, h2, -, h4⟩ := ih (P.resume st true) (cnt - 1) (step v s).2
            (l ++ [true]) (by omega)
          have hres : (limit P c0).resume (st, cnt - 1) true
              = limit.loop P (P.resume st true) (cnt - 1) := by simp [limit]
          rw [hres]
          refine ⟨true :: l2, by simpa using h1, by simp; omega, fun h => absurd h hle, ?_⟩
          intro k c s1 h
          obtain ⟨e1, e2⟩ := h4 k c s1 h
          exact ⟨by simp; omega, e2⟩
        | false =>
          have hres : (limit P c0).resume (st, cnt - 1) false = limit.leave P st (cnt - 1) := by
            simp [limit]
          rw [hres]
          unfold limit.leave
          cases hr : P.resume st false with
          | done k1 =>
            refine ⟨[false], by cases f <;> simp [Seq.callFrom, Run.state], by simp; omega,
              fun h => absurd h hle, ?_⟩
            intro k2 c s1 h
            have hc : c = cnt - 1 := by
              cases f <;> simp [Seq.callFrom] at h <;> exact h.1.2.symm
            rw [hc]
            exact ⟨by simp; omega, by omega⟩
          | yield w s2 =>
            refine ⟨[false], by cases f <;> simp [Seq.callFrom, Run.state], by simp; omega,
              fun h => absurd h hle, ?_⟩
            intro k2 c s1 h
            cases f <;> simp [Seq.callFrom] at h
          | crash =>
            refine ⟨[false], by cases f <;> simp [Seq.callFrom, Run.state], by simp; omega,
              fun h => absurd h hle, ?_⟩
            intro k2 c s1 h
            cases f <;> simp [Seq.callFrom] at h

theorem limit_drives_count {κ σ T S : Type} (P : Seq κ σ T) (c0 : Int) :
    ∀ (ds : List ((T → S → Bool × S) × Nat)) (k0 : κ × Int) (s : S) (l : List Bool)
      (k : κ × Int) (st : S × List Bool), k0.2 < 2 ^ 63 →
      (limit P c0).drives (ds.map (fun d => (logged d.1, d.2))) k0 (s, l) = some (k, st) →
      ∃ l2, st.2 = l ++ l2 ∧ k.2.toNat + l2.length = k0.2.toNat ∧ k.2 < 2 ^ 63 := by
  intro ds
  induction ds with
  | nil =>
    intro k0 s l k st hlt h
    simp only [List.map_nil, Seq.drives, Option.some.injEq, Prod.mk.injEq] at h
    refine ⟨[], by rw [← h.2]; simp, by rw [← h.1]; simp, by rw [← h.1]; exact hlt⟩
  | cons d rest ih =>
    intro k0 s l k st hlt h
    simp only [List.map_cons, Seq.drives] at h
    rw [call_again] at h
    have hen : (limit P c0).enter k0 = limit.loop P (P.enter k0.1) k0.2 := rfl
    rw [hen] at h
    obtain ⟨l2, h1, -, -, h4⟩ := limit_count P c0 d.1 d.2 (P.enter k0.1) k0.2 s l hlt
    cases hr : (limit P c0).callFrom (logged d.1) d.2 (limit.loop P (P.enter k0.1) k0.2) (s, l) with
    | returned k1 s1 =>
      rw [hr] at h h1
      simp only [Run.state] at h1
      obtain ⟨e1, e2⟩ := h4 k1.1 k1.2 s1 hr
      obtain ⟨l3, g1, g2, g3⟩ := ih k1 s1.1 s1.2 k st e2 h
      refine ⟨l2 ++ l3, by rw [g1, h1, List.append_assoc], ?_, g3⟩
      simp only [List.length_append]
      omega
    | panicked s1 => rw [hr] at h; simp at h
    | outOfFuel s1 => rw [hr] at h; simp at h

/-- C18 (the count is shared by all drives).  Take the producer returned by
`limit(P, N)`, `N` a count a Go `int` can hold, and drive it any number of
times, each drive with its own step callback, every drive but the last having
returned.  The number of values handed to the steps over all these drives is at
most `max(N, 0)`, and together with what is left of the count it is exactly
`max(N, 0)`; once it has reached `max(N, 0)`, no later drive of the same
producer hands over anything, whatever its step and whatever `P` still has.
The same bound holds for `limit2`. -/
theorem limit_shared_count {κ σ T S : Type} (P : Seq κ σ T) (N : Int) (hN : N < 2 ^ 63) :
    (∀ (ds : List ((T → S → Bool × S) × Nat)) (s : S) (k : κ × Int) (st : S × List Bool),
      (limit P N).drives (ds.map (fun d => (logged d.1, d.2))) (P.vars, N) (s, []) = some (k, st) →
      st.2.length ≤ N.toNat ∧ k.2.toNat + st.2.length = N.toNat ∧
      (st.2.length = N.toNat →
        ∀ (step : T → S → Bool × S) (fuel : Nat),
          (((limit P N).again k).call (logged step) fuel st).state = st)) ∧
    (∀ (U V : Type) (Q : Seq κ σ (U × V)) (ds : List ((U × V → S → Bool × S) × Nat)) (s : S)
      (k : κ × Int) (st : S × List Bool),
      (limit2 Q N).drives (ds.map (fun d => (logged d.1, d.2))) (Q.vars, N) (s, []) = some (k, st) →
      st.2.length ≤ N.toNat) := by
  refine ⟨?_, ?_⟩
  · intro ds s k st h
    obtain ⟨l2, h1, h2, h3⟩ := limit_drives_count P N ds (P.vars, N) s [] k st hN h
    simp only [List.nil_append] at h1
    rw [h1]
    refine ⟨by omega, h2, ?_⟩
    intro hfull step fuel
    have hk : k.2 ≤ 0 := by omega
    rw [call_again]
    have hen : (limit P N).enter k = limit.loop P (P.enter k.1) k.2 := rfl
    rw [hen]
    obtain ⟨-, -, -, g3, -⟩ := limit_count P N step fuel (P.enter k.1) k.2 st.1 st.2 h3
    exact g3 hk
  · intro U V Q ds s k st h
    rw [limit2_eq_limit] at h
    obtain ⟨l2, h1, h2, -⟩ := limit_drives_count Q N ds (Q.vars, N) s [] k st hN h
    simp only [List.nil_append] at h1
    rw [h1]
    omega

/-- Witness for C18: counting from 0 under `limit(_, 3)`, driven twice: the
first drive is stopped by its step on the second value, the second drive runs
until `limit` ends it. -/
theorem limit_shared_count_witness :
    ([true, false, true] : List Bool).length ≤ (3 : Int).toNat :=
  ((limit_shared_count (S := Unit) (numbersFrom 0) 3 (by decide)).1
    [(fun v s => (decide (v < 1), s), 5), (fun _ s => (true, s), 5)] ()
    ((2 : Int), (0 : Int)) ((), [true, false, true]) rfl).1

/-! ### Where a stopped producer resumes -/

theorem callFrom_stop {κ σ T S : Type} (P : Seq κ σ T) (step : T → S → Bool × S) (v : T)
    (kf : κ) :
    ∀ (pre : List T) (a : Susp κ σ T) (s : S),
      P.takeFrom (pre.length + 1) a = pre ++ [v] → AllContinue step s pre →
      (step v (pre.foldl (fun s x => (step x s).2) s)).1 = false →
      P.feed (List.replicate pre.length true ++ [false]) a = .done kf →
      ∀ fuel, pre.length + 1 ≤ fuel →
        P.callFrom step fuel a s
          = .returned kf (step v (pre.foldl (fun s x => (step x s).2) s)).2 := by
  intro pre
  induction pre with
  | nil =>
    intro a s ht _ hs hfeed fuel hfuel
    obtain ⟨f, rfl⟩ : ∃ f, fuel = f + 1 := ⟨fuel - 1, by simp at hfuel; omega⟩
    obtain ⟨s1, rfl, -⟩ := takeFrom_succ_eq_cons P (by simpa using ht)
    simp only [List.foldl_nil] at hs
    simp only [List.length_nil, List.replicate_zero, List.nil_append, Seq.feed] at hfeed
    simp only [Seq.callFrom, hs, hfeed, List.foldl_nil]
  | cons x pre ih =>
    intro a s ht hall hs hfeed fuel hfuel
    obtain ⟨f, rfl⟩ : ∃ f, fuel = f + 1 := ⟨fuel - 1, by simp at hfuel; omega⟩
    obtain ⟨s1, rfl, ht2⟩ := takeFrom_succ_eq_cons P (by simpa using ht)
    obtain ⟨h1, h2⟩ := hall
    simp only [List.foldl_cons] at hs
    simp only [List.length_cons, List.replicate_succ, List.cons_append, Seq.feed] at hfeed
    simp only [Seq.callFrom, h1, List.foldl_cons]
    exact ih (P.resume s1 true) (step x s).2 ht2 h2 hs hfeed f (by simp at hfuel; omega)

theorem intsFromTo_resume_enter (i0 hi i : Int) :
    (intsFromTo i0 hi).resume i true = (intsFromTo i0 hi).enter (wrap (i + 1)) := by
  simp [intsFromTo]

theorem intsFromTo_feed_stop (i0 hi : Int) (v : Int) :
    ∀ (pre : List Int) (i : Int),
      (intsFromTo i0 hi).takeFrom (pre.length + 1) ((intsFromTo i0 hi).enter i) = pre ++ [v] →
      (intsFromTo i0 hi).feed (List.replicate pre.length true ++ [false])
          ((intsFromTo i0 hi).enter i) = .done (wrap (v + 1)) := by
  intro pre
  induction pre with
  | nil =>
    intro i ht
    obtain ⟨s1, he, -⟩ := takeFrom_succ_eq_cons _ (by simpa using ht)
    rw [he]
    have hs : s1 = v := by
      by_cases hlt : i < hi
      · simp [intsFromTo, hlt] at he; rw [← he.2, he.1]
      · simp [intsFromTo, hlt] at he
    subst hs
    simp [Seq.feed, intsFromTo]
  | cons x pre ih =>
    intro i ht
    obtain ⟨s1, he, ht2⟩ := takeFrom_succ_eq_cons _ (by simpa using ht)
    rw [he]
    have hs : s1 = i := by
      by_cases hlt : i < hi
      · simp [intsFromTo, hlt] at he; exact he.2.symm
      · simp [intsFromTo, hlt] at he
    subst hs
    rw [intsFromTo_resume_enter] at ht2
    have := ih (wrap (s1 + 1)) ht2
    simp only [List.length_cons, List.replicate_succ, List.cons_append, Seq.feed,
      intsFromTo_resume_enter]
    exact this

theorem numbersFrom_feed_stop (i0 : Int) (v : Int) :
    ∀ (pre : List Int) (i : Int),
      (numbersFrom i0).takeFrom (pre.length + 1) (.yield i i) = pre ++ [v] →
      (numbersFrom i0).feed (List.replicate pre.length true ++ [false]) (.yield i i)
        = .done v := by
  intro pre
  induction pre with
  | nil =>
    intro i ht
    obtain ⟨s1, he, -⟩ := takeFrom_succ_eq_cons _ (by simpa using ht)
    simp only [Susp.yield.injEq] at he
    simp [Seq.feed, numbersFrom, he.1]
  | cons x pre ih =>
    intro i ht
    obtain ⟨s1, he, ht2⟩ := takeFrom_succ_eq_cons _ (by simpa using ht)
    simp only [Susp.yield.injEq] at he
    rw [← he.2] at ht2
    have hr : (numbersFrom i0).resume i true = .yield (wrap (i + 1)) (wrap (i + 1)) := by
      simp [numbersFrom]
    rw [hr] at ht2
    have := ih (wrap (i + 1)) ht2
    simp only [List.length_cons, List.replicate_succ, List.cons_append, Seq.feed, hr]
    exact this

theorem intsFrom_eq_numbersFrom (i : Int) : intsFrom i = numbersFrom i := rfl

theorem intsFromTo_exhausted (i0 hi : Int) :
    ∀ (f : Nat) (i : Int) (acc xs : List Int) (kf : Int),
      (intsFromTo i0 hi).callFrom collect f ((intsFromTo i0 hi).enter i) acc = .returned kf xs →
      ¬ kf < hi := by
  intro f
  induction f with
  | zero =>
    intro i acc xs kf h
    by_cases hlt : i < hi
    · simp [intsFromTo, hlt, Seq.callFrom] at h
    · simp only [intsFromTo, hlt, if_false, Seq.callFrom, Run.returned.injEq] at h
      rw [← h.1]; exact hlt
  | succ f ih =>
    intro i acc xs kf h
    by_cases hlt : i < hi
    · have he : (intsFromTo i0 hi).enter i = .yield i i := by simp [intsFromTo, hlt]
      rw [he] at h
      simp only [Seq.callFrom, collect, intsFromTo_resume_enter] at h
      exact ih _ _ _ _ h
    · simp only [intsFromTo, hlt, if_false, Seq.callFrom, Run.returned.injEq] at h
      rw [← h.1]; exact hlt

theorem reduceToSlice_mono {κ σ T : Type} (P : Seq κ σ T) (f : Nat) (k : κ) (xs : List T)
    (h : reduceToSlice P f = .returned k xs) :
    ∀ g, f ≤ g → reduceToSlice P g = .returned k xs := by
  intro g hg
  have hs : (reduce P ([] : List T) (fun agg val => (agg ++ [val], (none : Option Unit))) f).seen
      ≠ none := by
    unfold reduceToSlice at h
    cases hr : reduce P ([] : List T) (fun agg val => (agg ++ [val], (none : Option Unit))) f with
    | returned k1 r => simp [Run.seen]
    | panicked r => rw [hr] at h; simp at h
    | outOfFuel r => rw [hr] at h; simp at h
  have hm : reduce P ([] : List T) (fun agg val => (agg ++ [val], (none : Option Unit))) g
      = reduce P ([] : List T) (fun agg val => (agg ++ [val], (none : Option Unit))) f :=
    rangeFrom_mono P _ f (P.enter P.vars) ([], none) hs g hg
  unfold reduceToSlice at h ⊢
  rw [hm]
  exact h

theorem intsFromTo_take_value (lo hi : Int) (h1 : -2 ^ 63 ≤ lo) (h2 : hi < 2 ^ 63)
    (pre : List Int) (v : Int)
    (ht : (intsFromTo lo hi).take (pre.length + 1) = pre ++ [v]) :
    v = lo + pre.length ∧ v < hi := by
  have hc := intsFromTo_collect lo hi h2 (hi - lo).toNat lo h1 rfl (hi - lo).toNat [] (le_refl _)
  obtain ⟨rest, hx, he⟩ := emits_of_callFrom _ _ _ _ _ _ hc
  simp only [List.nil_append] at hx
  have htake := takeFrom_of_emits _ he (pre.length + 1)
  rw [← hx] at htake
  have ht2 : pre ++ [v]
      = ((List.range (hi - lo).toNat).map (fun (j : Nat) => lo + (j : Int))).take
          (pre.length + 1) := by
    rw [← ht, ← htake]; rfl
  have hlen := congrArg List.length ht2
  simp only [List.length_append, List.length_singleton, List.length_take, List.length_map,
    List.length_range] at hlen
  have hlt : pre.length < (hi - lo).toNat := by omega
  have hget := congrArg (fun l => l[pre.length]?) ht2
  simp only [List.getElem?_append_right (le_refl _), Nat.sub_self, List.getElem?_cons_zero]
    at hget
  rw [List.getElem?_take_of_lt (by omega), List.getElem?_map,
    List.getElem?_range hlt] at hget
  simp only [Option.map_some', Option.some.injEq] at hget
  exact ⟨hget, by omega⟩

/-- C20 (`intsFromTo` skips the refused value).  When a drive of
`r = intsFromTo(lo, hi)` (`lo`, `hi` Go integers) is stopped by its step
answering `false` on the value `v`, the drive returns with the captured counter
at `v + 1`, so the next drive of `r` starts at `v + 1` (if that is below `hi`;
otherwise it hands over nothing) and `v` is never handed over again; a
`numbersFrom` or `intsFrom` producer stopped on `v` is left at `v`, and its next
drive starts with `v`.  For `r = intsFromTo(0, 10)`,
`reduceToSlice(limit(r, 3))` is `[0, 1, 2]` and leaves `r` at 4, and a following
`reduceToSlice(r)` is `[4, 5, 6, 7, 8, 9]`.  After a drive that ran to
exhaustion every later drive of `r` returns at once without calling its
step. -/
theorem intsFromTo_skips_refused :
    (∀ (S : Type) (lo hi : Int) (step : Int → S → Bool × S) (s0 : S) (pre : List Int) (v : Int),
      -2 ^ 63 ≤ lo → hi < 2 ^ 63 →
      (intsFromTo lo hi).take (pre.length + 1) = pre ++ [v] → AllContinue step s0 pre →
      (step v (pre.foldl (fun s x => (step x s).2) s0)).1 = false →
      ∀ fuel, pre.length + 1 ≤ fuel →
        (intsFromTo lo hi).call step fuel s0
          = .returned (v + 1) (step v (pre.foldl (fun s x => (step x s).2) s0)).2 ∧
        ((intsFromTo lo hi).again (v + 1)).take 1 = (if v + 1 < hi then [v + 1] else [])) ∧
    (∀ (S : Type) (start : Int) (step : Int → S → Bool × S) (s0 : S) (pre : List Int) (v : Int),
      (numbersFrom start).take (pre.length + 1) = pre ++ [v] → AllContinue step s0 pre →
      (step v (pre.foldl (fun s x => (step x s).2) s0)).1 = false →
      ∀ fuel, pre.length + 1 ≤ fuel →
        ((numbersFrom start).call step fuel s0
          = .returned v (step v (pre.foldl (fun s x => (step x s).2) s0)).2 ∧
        ((numbersFrom start).again v).take 1 = [v]) ∧
        ((intsFrom start).call step fuel s0
          = .returned v (step v (pre.foldl (fun s x => (step x s).2) s0)).2 ∧
        ((intsFrom start).again v).take 1 = [v])) ∧
    ((∀ fuel, 3 ≤ fuel →
        reduceToSlice (limit (intsFromTo 0 10) 3) fuel = .returned (4, 0) [0, 1, 2]) ∧
      (∀ fuel, 6 ≤ fuel →
        reduceToSlice ((intsFromTo 0 10).again 4) fuel = .returned 10 [4, 5, 6, 7, 8, 9])) ∧
    (∀ (S : Type) (lo hi : Int) (f : Nat) (kf : Int) (xs : List Int),
      (intsFromTo lo hi).call collect f [] = .returned kf xs →
      ∀ (step : Int → S → Bool × S) (fuel : Nat) (s : S),
        ((intsFromTo lo hi).again kf).call step fuel s = .returned kf s) := by
  refine ⟨?_, ?_, ⟨?_, ?_⟩, ?_⟩
  · intro S lo hi step s0 pre v h1 h2 ht hc hs fuel hfuel
    obtain ⟨hv, hvlt⟩ := intsFromTo_take_value lo hi h1 h2 pre v ht
    have hw : wrap (v + 1) = v + 1 := wrap_eq_self (by omega) (by omega)
    have hfeed := intsFromTo_feed_stop lo hi v pre lo ht
    rw [hw] at hfeed
    refine ⟨callFrom_stop _ step v (v + 1) pre _ s0 ht hc hs hfeed fuel hfuel, ?_⟩
    by_cases hlt : v + 1 < hi <;> simp [Seq.take, Seq.again, intsFromTo, hlt, Seq.takeFrom]
  · intro S start step s0 pre v ht hc hs fuel hfuel
    have hfeed := numbersFrom_feed_stop start v pre start ht
    have hrun := callFrom_stop _ step v v pre _ s0 ht hc hs hfeed fuel hfuel
    have htake : ((numbersFrom start).again v).take 1 = [v] := by
      simp [Seq.take, Seq.again, numbersFrom, Seq.takeFrom]
    exact ⟨⟨hrun, htake⟩, ⟨hrun, htake⟩⟩
  · intro fuel hf
    exact reduceToSlice_mono _ 3 _ _ (by decide) fuel hf
  · intro fuel hf
    exact reduceToSlice_mono _ 6 _ _ (by decide) fuel hf
  · intro S lo hi f kf xs h step fuel s
    have hk := intsFromTo_exhausted lo hi f lo [] xs kf h
    rw [call_again]
    have he : (intsFromTo lo hi).enter kf = .done kf := by simp [intsFromTo, hk]
    rw [he]
    cases fuel <;> rfl

/-- Witness for C20: the range 0 .. 9 stopped by its step on the value 3. -/
theorem intsFromTo_skips_refused_witness :
    (intsFromTo 0 10).call (fun (v : Int) (seen : List Int) => (decide (v < 3), seen ++ [v])) 4 []
        = .returned (3 + 1) [0, 1, 2, 3] ∧
      ((intsFromTo 0 10).again (3 + 1)).take 1 = (if (3 : Int) + 1 < 10 then [3 + 1] else []) :=
  intsFromTo_skips_refused.1 (List Int) 0 10
    (fun (v : Int) (seen : List Int) => (decide (v < 3), seen ++ [v])) [] [0, 1, 2] 3
    (by decide) (by decide) (by decide) ⟨by decide, by decide, by decide, trivial⟩ (by decide)
    4 (by decide)

/-! ### `fibs`: the cells behind the values -/

theorem fibStore_getD (k i : Nat) (h : i < k) : (fibStore k).getD i 0 = fibSpec i := by
  simp [fibStore, List.getD_eq_getElem?_getD, List.getElem?_map, List.getElem?_range h]

theorem fibStore_succ (k : Nat) : fibStore (k + 1) = fibStore k ++ [fibSpec k] := by
  simp [fibStore, List.range_succ]

theorem fibStore_length (k : Nat) : (fibStore k).length = k := by
  simp [fibStore]

theorem fibsPtr_step (j : Nat) :
    fibsPtr.resume (.inLoop, fibStore (j + 2), j, j + 1) true
      = .yield (j + 2) (.inLoop, fibStore (j + 3), j + 1, j + 2) := by
  have h1 := fibStore_getD (j + 2) j (by omega)
  have h2 := fibStore_getD (j + 2) (j + 1) (by omega)
  have h3 : fibSpec j + fibSpec (j + 1) = fibSpec (j + 2) := by
    simp only [fibSpec]; ring
  simp only [fibsPtr, Bool.not_true, Bool.false_eq_true, if_false, h1, h2, h3,
    fibStore_length, ← fibStore_succ]

theorem fibsPtr_feed_loop :
    ∀ (m j : Nat),
      fibsPtr.feed (List.replicate m true) (.yield (j + 1) (.inLoop, fibStore (j + 2), j, j + 1))
        = .yield (j + 1 + m) (.inLoop, fibStore (j + 2 + m), j + m, j + 1 + m) := by
  intro m
  induction m with
  | zero => intro j; rfl
  | succ m ih =>
    intro j
    simp only [List.replicate_succ, Seq.feed, fibsPtr_step]
    rw [ih (j + 1)]
    have e1 : j + 1 + 1 + m = j + 1 + (m + 1) := by omega
    have e2 : j + 1 + 2 + m = j + 2 + (m + 1) := by omega
    have e3 : j + 1 + m = j + (m + 1) := by omega
    rw [e1, e2, e3]

theorem fibsPtr_feed (m : Nat) :
    fibsPtr.feed (List.replicate (m + 1) true) (fibsPtr.enter fibsPtr.vars)
      = .yield (m + 1) (.inLoop, fibStore (m + 2), m, m + 1) := by
  have he : fibsPtr.enter fibsPtr.vars = .yield 0 (.first, [1, 1], 0, 1) := rfl
  have h0 : fibsPtr.resume (.first, [1, 1], 0, 1) true
      = .yield (0 + 1) (.inLoop, fibStore (0 + 2), 0, 0 + 1) := rfl
  rw [he, List.replicate_succ]
  simp only [Seq.feed]
  rw [h0, fibsPtr_feed_loop m 0]
  have e1 : 0 + 1 + m = m + 1 := by omega
  have e2 : 0 + 2 + m = m + 2 := by omega
  have e3 : 0 + m = m := by omega
  rw [e1, e2, e3]

theorem feed_append {κ σ T : Type} (p : Seq κ σ T) :
    ∀ (l1 l2 : List Bool) (a : Susp κ σ T), p.feed (l1 ++ l2) a = p.feed l2 (p.feed l1 a) := by
  intro l1
  induction l1 with
  | nil => intro l2 a; rfl
  | cons b l1 ih =>
    intro l2 a
    cases a with
    | done k => cases l2 <;> rfl
    | crash => cases l2 <;> rfl
    | yield v s => simp only [List.cons_append, Seq.feed]; exact ih _ _

theorem fibsPtr_takeFrom_loop :
    ∀ (n j : Nat),
      fibsPtr.takeFrom n (.yield (j + 1) (.inLoop, fibStore (j + 2), j, j + 1))
        = (List.range n).map (fun (i : Nat) => j + 1 + i) := by
  intro n
  induction n with
  | zero => intro j; rfl
  | succ n ih =>
    intro j
    rw [List.range_succ_eq_map]
    simp only [Seq.takeFrom, fibsPtr_step, List.map_cons, List.map_map, Nat.add_zero,
      List.cons.injEq, true_and]
    rw [ih (j + 1)]
    apply List.map_congr_left
    intro i _
    simp only [Function.comp, Nat.succ_eq_add_one]
    omega

theorem fibsPtr_take (n : Nat) : fibsPtr.take n = List.range n := by
  cases n with
  | zero => rfl
  | succ n =>
    have he : fibsPtr.enter fibsPtr.vars = .yield 0 (.first, [1, 1], 0, 1) := rfl
    have h0 : fibsPtr.resume (.first, [1, 1], 0, 1) true
        = .yield (0 + 1) (.inLoop, fibStore (0 + 2), 0, 0 + 1) := rfl
    rw [Seq.take, he, List.range_succ_eq_map]
    simp only [Seq.takeFrom, List.cons.injEq, true_and]
    rw [h0, fibsPtr_takeFrom_loop n 0]
    apply List.map_congr_left
    intro i _
    simp only [Nat.succ_eq_add_one]
    omega

theorem fibsPtr_store_at (m : Nat) :
    ∃ pc h a b,
      fibsPtr.feed (List.replicate m true) (fibsPtr.enter fibsPtr.vars) = .yield m (pc, h, a, b) ∧
      fibsPtr.resume (pc, h, a, b) false = .done (h, a, b) ∧
      ∀ n, n ≤ m → h.getD n 0 = fibSpec n := by
  cases m with
  | zero =>
    refine ⟨.first, [1, 1], 0, 1, rfl, rfl, ?_⟩
    intro n hn
    have : n = 0 := by omega
    subst this
    rfl
  | succ m =>
    refine ⟨.inLoop, fibStore (m + 2), m, m + 1, fibsPtr_feed m, rfl, ?_⟩
    intro n hn
    exact fibStore_getD (m + 2) n (by omega)

theorem reduceToSlice_of_call {κ σ T : Type} (P : Seq κ σ T) (f : Nat) (k : κ) (xs : List T)
    (h : P.call collect f [] = .returned k xs) (fuel : Nat) (hf : xs.length ≤ fuel) :
    reduceToSlice P fuel = .returned k xs := by
  obtain ⟨rest, hx, he⟩ := emits_of_callFrom P f _ _ _ _ h
  simp only [List.nil_append] at hx
  subst hx
  have := rangeFrom_reduce_of_emits P
    (fun (agg : List T) (val : T) => (agg ++ [val], (none : Option Unit))) he []
    (neverFails_append xs []) fuel hf
  rw [foldl_append_singleton] at this
  simp only [reduceToSlice, reduce, Seq.forRange]
  rw [this]
  simp

/-- C16 (no retroactive mutation).  At the level of `*big.Int` pointers, the
cells being kept in a store: the `n`-th value handed over by `fibs()` is the
cell `n`, a different cell for every `n`; at the time of every later call of
`yield`, and after `fibs` has been told to stop, that cell still holds the
Fibonacci number `f(n)` it held when it was handed over.  So every pointer
collected by `reduceToSlice(limit(fibs(), N))` still reads as its Fibonacci
number in the store the drive leaves behind, and read there the pointers give
the values of `fibs()`. -/
theorem fibs_values_not_mutated :
    (∀ n, fibsPtr.take n = List.range n) ∧
    (∀ n m, n ≤ m →
      ∃ pc h a b,
        fibsPtr.feed (List.replicate m true) (fibsPtr.enter fibsPtr.vars)
          = .yield m (pc, h, a, b) ∧
        h.getD n 0 = fibSpec n) ∧
    (∀ n m, n ≤ m →
      ∃ h a b,
        fibsPtr.feed (List.replicate m true ++ [false]) (fibsPtr.enter fibsPtr.vars)
          = .done (h, a, b) ∧
        h.getD n 0 = fibSpec n) ∧
    (∀ (N fuel : Nat), (N : Int) < 2 ^ 63 → N ≤ fuel →
      ∃ h a b,
        reduceToSlice (limit fibsPtr N) fuel = .returned ((h, a, b), 0) (List.range N) ∧
        (∀ i, i < N → h.getD i 0 = fibSpec i) ∧
        fibs.take N = (List.range N).map (fun p => h.getD p 0)) := by
  refine ⟨fibsPtr_take, ?_, ?_, ?_⟩
  · intro n m hnm
    obtain ⟨pc, h, a, b, h1, -, h3⟩ := fibsPtr_store_at m
    exact ⟨pc, h, a, b, h1, h3 n hnm⟩
  · intro n m hnm
    obtain ⟨pc, h, a, b, h1, h2, h3⟩ := fibsPtr_store_at m
    refine ⟨h, a, b, ?_, h3 n hnm⟩
    rw [feed_append, h1]
    simpa [Seq.feed] using h2
  · intro N fuel hN hf
    obtain ⟨pc, h, a, b, h1, h2, h3⟩ := fibsPtr_store_at N
    have hfeed : fibsPtr.feed (List.replicate N true ++ [false]) (fibsPtr.enter fibsPtr.vars)
        = .done (h, a, b) := by
      rw [feed_append, h1]
      simpa [Seq.feed] using h2
    have hl : (fibsPtr.takeFrom ((N : Int).toNat + 1) (fibsPtr.enter fibsPtr.vars)).length
        = (N : Int).toNat + 1 := by
      have := fibsPtr_take ((N : Int).toNat + 1)
      simp only [Seq.take] at this
      rw [this]; simp
    have hrun := limit_drain fibsPtr N (N : Int).toNat N (fibsPtr.enter fibsPtr.vars) [] N rfl hN
      (by simp) hl
    simp only [Int.toNat_ofNat] at hrun
    rw [hfeed] at hrun
    have htk : fibsPtr.takeFrom N (fibsPtr.enter fibsPtr.vars) = List.range N := fibsPtr_take N
    simp only [htk, List.nil_append, sub_self] at hrun
    have hcall : (limit fibsPtr N).call collect N [] = .returned ((h, a, b), 0) (List.range N) := by
      simpa [Seq.call, limit] using hrun
    refine ⟨h, a, b, reduceToSlice_of_call _ N _ _ hcall fuel (by simpa using hf), ?_, ?_⟩
    · intro i hi
      exact h3 i (by omega)
    · rw [take_fibs]
      apply List.map_congr_left
      intro p hp
      rw [h3 p (by have := List.mem_range.mp hp; omega)]

/-- Witness for C16: the ten pointers collected under `limit(_, 10)`. -/
theorem fibs_values_not_mutated_witness :
    ∃ h a b,
      reduceToSlice (limit fibsPtr (10 : Nat)) 10 = .returned ((h, a, b), 0) (List.range 10) ∧
      (∀ i, i < 10 → h.getD i 0 = fibSpec i) ∧
      fibs.take 10 = (List.range 10).map (fun p => h.getD p 0) :=
  fibs_values_not_mutated.2.2.2 10 10 (by decide) (by decide)

end IterToy
